import Mathlib

/-!
Verification of the bcproxy BC-protocol codec (BatMUD batclient-mode proxy).

The definitions below are shallow embeddings of the Rust sources:
  * `decode` / `drain`      — `BatMudCodec::decode` in `src/codec/mod.rs`
  * `ccFrom`                — `ControlCode::from` in `src/codec/control_code/mod.rs`
  * `ccToBytes`             — `ControlCode::to_bytes` in `src/codec/control_code/transform.rs`
  * `rgbTo256`              — modelled from the spec (§4.1); the source file is absent
  * `mapperTryFrom`         — `Mapper::try_from` in `src/codec/control_code/mapper.rs`
  * `decodeS` / `drainS`    — `ServerCodec::decode` in `src/codec/server_codec.rs`
  * `decodeEofS`            — `ServerCodec::decode_eof` in `src/codec/server_codec.rs`
  * `batTagToBytes`         — `From<BatTag> for BytesMut` in `src/bat_tag.rs`
  * `handleFrame`           — the frame dispatch of `server_to_client` in `src/main.rs`

Bytes are modelled as `Nat` (all source operations are comparisons and copies;
no arithmetic overflows the byte range), buffers as `List Nat`.
-/

namespace BCProxy

abbrev Byte := Nat
abbrev Buf := List Byte

/-! ### List utilities shared by the codec models -/

/-- Position of the first byte satisfying `p`, mirroring `iter().position(...)`. -/
def firstHit (p : Byte → Bool) : Buf → Option Nat
  | [] => none
  | b :: rest => if p b then some 0 else (firstHit p rest).map (· + 1)

theorem firstHit_lt {p : Byte → Bool} {l : Buf} {i : Nat}
    (h : firstHit p l = some i) : i < l.length := by
  induction l generalizing i with
  | nil => simp [firstHit] at h
  | cons b rest ih =>
    rw [firstHit] at h
    by_cases hb : p b
    · rw [if_pos hb] at h
      cases h
      simp
    · rw [if_neg hb] at h
      rcases Option.map_eq_some'.mp h with ⟨j, hj, hji⟩
      have := ih hj
      simp only [List.length_cons]
      omega

theorem firstHit_getD {p : Byte → Bool} {l : Buf} {i : Nat}
    (h : firstHit p l = some i) : p (l.getD i 0) = true := by
  induction l generalizing i with
  | nil => simp [firstHit] at h
  | cons b rest ih =>
    rw [firstHit] at h
    by_cases hb : p b
    · rw [if_pos hb] at h
      cases h
      simpa using hb
    · rw [if_neg hb] at h
      rcases Option.map_eq_some'.mp h with ⟨j, hj, hji⟩
      subst hji
      simpa [List.getD_cons_succ] using ih hj

theorem firstHit_none_iff {p : Byte → Bool} {l : Buf} :
    firstHit p l = none ↔ ∀ b ∈ l, p b = false := by
  induction l with
  | nil => simp [firstHit]
  | cons b rest ih =>
    rw [firstHit]
    by_cases hb : p b
    · rw [if_pos hb]
      simp only [List.mem_cons]
      constructor
      · intro h
        exact absurd h (by simp)
      · intro h
        have := h b (Or.inl rfl)
        rw [hb] at this
        exact absurd this (by simp)
    · rw [if_neg hb]
      simp only [Option.map_eq_none', ih, List.mem_cons]
      constructor
      · intro h x hx
        rcases hx with rfl | hx
        · simpa using hb
        · exact h x hx
      · intro h x hx
        exact h x (Or.inr hx)

theorem firstHit_append_some {p : Byte → Bool} {l e : Buf} {i : Nat}
    (h : firstHit p l = some i) : firstHit p (l ++ e) = some i := by
  induction l generalizing i with
  | nil => simp [firstHit] at h
  | cons b rest ih =>
    rw [firstHit] at h
    rw [List.cons_append, firstHit]
    by_cases hb : p b
    · rw [if_pos hb] at h ⊢
      exact h
    · rw [if_neg hb] at h ⊢
      rcases Option.map_eq_some'.mp h with ⟨j, hj, hji⟩
      rw [ih hj]
      simpa using hji

theorem firstHit_append_none {p : Byte → Bool} {l e : Buf}
    (h : firstHit p l = none) :
    firstHit p (l ++ e) = (firstHit p e).map (· + l.length) := by
  induction l with
  | nil => simp
  | cons b rest ih =>
    rw [firstHit] at h
    rw [List.cons_append, firstHit]
    by_cases hb : p b
    · rw [if_pos hb] at h
      exact absurd h (by simp)
    · rw [if_neg hb] at h ⊢
      rw [ih (by simpa using h)]
      cases firstHit p e with
      | none => simp
      | some j =>
        simp only [Option.map_some', List.length_cons]
        exact congrArg some (by omega)

theorem take_append_le {l e : Buf} {n : Nat} (h : n ≤ l.length) :
    (l ++ e).take n = l.take n := by
  induction l generalizing n with
  | nil =>
    have : n = 0 := by simpa using h
    subst this
    simp
  | cons b rest ih =>
    cases n with
    | zero => simp
    | succ m =>
      simp only [List.length_cons] at h
      simp only [List.cons_append, List.take_succ_cons]
      rw [ih (by omega)]

theorem drop_append_le {l e : Buf} {n : Nat} (h : n ≤ l.length) :
    (l ++ e).drop n = l.drop n ++ e := by
  induction l generalizing n with
  | nil =>
    have : n = 0 := by simpa using h
    subst this
    simp
  | cons b rest ih =>
    cases n with
    | zero => simp
    | succ m =>
      simp only [List.length_cons] at h
      simp only [List.cons_append, List.drop_succ_cons]
      exact ih (by omega)

theorem getD_append_lt {l e : Buf} {i : Nat} {d : Byte} (h : i < l.length) :
    (l ++ e).getD i d = l.getD i d := by
  induction l generalizing i with
  | nil => simp at h
  | cons b rest ih =>
    cases i with
    | zero => simp
    | succ j =>
      simp only [List.length_cons] at h
      simp only [List.cons_append, List.getD_cons_succ]
      exact ih (by omega)

theorem getD_mem {l : Buf} {i : Nat} (h : i < l.length) : l.getD i 0 ∈ l := by
  induction l generalizing i with
  | nil => simp at h
  | cons b rest ih =>
    cases i with
    | zero => simp
    | succ j =>
      simp only [List.length_cons] at h
      simp only [List.getD_cons_succ, List.mem_cons]
      right
      exact ih (by omega)

theorem getD_drop {l : Buf} {k j : Nat} :
    (l.drop k).getD j 0 = l.getD (k + j) 0 := by
  induction l generalizing k with
  | nil => simp
  | cons b rest ih =>
    cases k with
    | zero => simp
    | succ m =>
      simp only [List.drop_succ_cons, ih]
      have : m + 1 + j = (m + j) + 1 := by omega
      rw [this, List.getD_cons_succ]

/-- Rust slice `l[a..b]`. -/
def sl (l : Buf) (a b : Nat) : Buf := (l.drop a).take (b - a)

/-! ### Control-code tree (`ControlCode` of `src/codec/control_code/mod.rs`)

`children` entries are `Sum.inl bytes` for `ControlCodeContent::Text` and
`Sum.inr tree` for `ControlCodeContent::Code`. -/

inductive CC where
  | mk (code : Byte × Byte) (attr : Buf) (children : List (Buf ⊕ CC)) : CC

def CC.code : CC → Byte × Byte
  | .mk c _ _ => c

def CC.attr : CC → Buf
  | .mk _ a _ => a

def CC.children : CC → List (Buf ⊕ CC)
  | .mk _ _ ch => ch

/-! `ControlCode::from` of `src/codec/control_code/mod.rs`: re-parses the byte
range of a balanced tag into a `CC` tree.  The Rust original is a pair of
nested loops plus recursion; both loops strictly advance an index, so a fuel
parameter quadratic in the input length makes the model total.  Where the Rust
code would panic on an out-of-range `bytes[next_esc_index + 1]` the model
aborts with `.error` (both abort the parse). -/

/-- The two nested loops of `ControlCode::from`, de-mutualised into one fueled
function: an `.inl` job is the outer loop (bytes, index, depth, attribute,
children), an `.inr` job is the inner loop (bytes, openEsc, innerIndex,
depth).  An `.inl` job only ever produces `.inl` results and an `.inr` job
only `.inr` results; the mismatched arms are unreachable. -/
def ccGo : Nat →
    (Buf × Nat × Nat × Buf × List (Buf ⊕ CC)) ⊕ (Buf × Nat × Nat × Nat) →
    Except Unit (CC ⊕ (CC × Nat))
  | 0, _ => .error ()
  | fuel+1, .inl (bytes, index, depth, attr, children) =>
    match firstHit (fun b => b == 27) (bytes.drop index) with
    | none => .error ()
    | some off =>
      let ne := index + off
      if ne + 1 < bytes.length then
        let nb := bytes.getD (ne+1) 0
        if nb == 62 && depth == 0 then
          .ok (.inl (.mk (bytes.getD 2 0, bytes.getD 3 0) attr
            (children ++ (if index < ne then [.inl (sl bytes index ne)] else []))))
        else if nb == 62 then
          ccGo fuel (.inl (bytes, ne+4, depth-1, attr, children))
        else if nb == 124 then
          ccGo fuel (.inl (bytes, ne+2, depth, sl bytes index ne, children))
        else if nb == 60 then
          let children' := children ++ (if index < ne then [.inl (sl bytes index ne)] else [])
          match ccGo fuel (.inr (bytes, ne, ne+4, depth+1)) with
          | .error e => .error e
          | .ok (.inr (child, idx2)) =>
            ccGo fuel (.inl (bytes, idx2, 0, attr, children' ++ [.inr child]))
          | .ok (.inl _) => .error ()
        else
          ccGo fuel (.inl (bytes, ne+1, depth, attr,
            children ++ (if index ≤ ne then [.inl (sl bytes index (ne+1))] else [])))
      else .error ()
  | fuel+1, .inr (bytes, openEsc, inner, depth) =>
    match firstHit (fun b => b == 27) (bytes.drop inner) with
    | none => .error ()
    | some off =>
      let nie := inner + off
      if nie + 1 < bytes.length then
        let nb := bytes.getD (nie+1) 0
        if nb == 124 then ccGo fuel (.inr (bytes, openEsc, nie+2, depth))
        else if nb == 60 then ccGo fuel (.inr (bytes, openEsc, nie+4, depth+1))
        else if nb == 62 then
          if depth - 1 > 0 then ccGo fuel (.inr (bytes, openEsc, nie+4, depth-1))
          else
            match ccGo fuel (.inl (sl bytes openEsc (nie+4), 4, 0, [], [])) with
            | .error e => .error e
            | .ok (.inl child) => .ok (.inr (child, nie+4))
            | .ok (.inr _) => .error ()
        else ccGo fuel (.inr (bytes, openEsc, nie+1, depth))
      else .error ()

def ccFrom (bytes : Buf) : Except Unit CC :=
  match ccGo ((bytes.length + 2) * (bytes.length + 2)) (.inl (bytes, 4, 0, [], [])) with
  | .ok (.inl cc) => .ok cc
  | _ => .error ()

/-! ### Color mapping

`rgbToXterm` follows `rgb_to_xterm` of `src/color/color256.rs` (base-color and
grey tables, then the 6x6x6 cube), and `hexNib` follows `hex_to_u8` there. -/

def baseColors : List Nat :=
  [0x000000, 0x800000, 0x008000, 0x808000, 0x000080, 0x800080, 0x008080, 0xc0c0c0,
   0x808080, 0xff0000, 0x00ff00, 0xffff00, 0x0000ff, 0xff00ff, 0x00ffff, 0xffffff]

def greyColors : List Nat :=
  [0x080808, 0x121212, 0x1c1c1c, 0x262626, 0x303030, 0x3a3a3a, 0x444444, 0x4e4e4e,
   0x585858, 0x626262, 0x6c6c6c, 0x767676, 0x808080, 0x8a8a8a, 0x949494, 0x9e9e9e,
   0xa8a8a8, 0xb2b2b2, 0xbcbcbc, 0xc6c6c6, 0xd0d0d0, 0xdadada, 0xe4e4e4, 0xeeeeee]

def hexNib (c : Byte) : Byte :=
  if 48 ≤ c && c ≤ 57 then c - 48
  else if 65 ≤ c && c ≤ 70 then c - 65 + 10
  else if 97 ≤ c && c ≤ 102 then c - 97 + 10
  else 0

def rgbToXterm (r g b : Byte) : Byte :=
  let rgb := r * 65536 + g * 256 + b
  match firstHit (fun x => x == rgb) baseColors with
  | some i => i
  | none =>
    match firstHit (fun x => x == rgb) greyColors with
    | some i => 232 + i
    | none => 16 + 36 * (r * 5 / 255) + 6 * (g * 5 / 255) + (b * 5 / 255)

/-- Modelled from the spec: `rgb_to_256` (the ColorMap of §4.1) is called by
`src/codec/control_code/transform.rs` but its source file is not present under
`src/`; per §4.1 the argument is a 1–6 byte hex string, conceptually
right-padded with `'0'`, non-hex bytes count as nibble 0, oversized input
yields 0. -/
def rgbTo256 (attr : Buf) : Byte :=
  if attr.length > 6 then 0
  else
    rgbToXterm
      (hexNib (attr.getD 0 0) * 16 + hexNib (attr.getD 1 0))
      (hexNib (attr.getD 2 0) * 16 + hexNib (attr.getD 3 0))
      (hexNib (attr.getD 4 0) * 16 + hexNib (attr.getD 5 0))

/-- Decimal ASCII rendering of a palette index (always < 256), as produced by
the Rust `format!` interpolation. -/
def decDigits (n : Byte) : Buf :=
  if n < 10 then [48 + n]
  else if n < 100 then [48 + n / 10, 48 + n % 10]
  else [48 + n / 100, 48 + n / 10 % 10, 48 + n % 10]

/-! ### Transformer (`ControlCode::to_bytes` of `src/codec/control_code/transform.rs`) -/

/-- Rust `slice::split(|b| *b == sep)`: the separator-free pieces, one more
piece than separators. -/
def splitOn (sep : Byte) : Buf → List Buf
  | [] => [[]]
  | b :: rest =>
    if b == sep then [] :: splitOn sep rest
    else
      match splitOn sep rest with
      | [] => [[b]]
      | s :: ss => (b :: s) :: ss

/-- The two-byte channel-line marker `PREFIX` (`0xCF 0x80`, UTF-8 pi). -/
def piMark : Buf := [207, 128]

def specPromptBytes : Buf := [115, 112, 101, 99, 95, 112, 114, 111, 109, 112, 116]

def specSkillBytes : Buf := [115, 112, 101, 99, 95, 115, 107, 105, 108, 108]

def specSpellBytes : Buf := [115, 112, 101, 99, 95, 115, 112, 101, 108, 108]

/-- One prefixed channel line: `PREFIX attr ": " line "\n"`. -/
def chanLine (attr line : Buf) : Buf := piMark ++ attr ++ [58, 32] ++ line ++ [10]

/-- The `MESSAGE_OF_TYPE` default branch loop body
(`for line in &lines[0..lines.len() - 1]`). -/
def chanLines (attr : Buf) (ls : List Buf) : Buf :=
  ls.foldl (fun acc l => acc ++ chanLine attr l) []

/-- `embed_info_type!`: `PREFIX c1 c2 ':' body '\n'` (no space after the colon). -/
def infoWrap (c1 c2 : Byte) (body : Buf) : Buf :=
  piMark ++ [c1, c2, 58] ++ body ++ [10]

/-- The `CUSTOM_INFO` field scanner of `transform.rs` (single `';'` scan with a
lookahead for the second `';'`); the loop strictly advances `next`, so fuel
`cb.length + 2` is sufficient. -/
def ciFieldsGo : Nat → Buf → Nat → Nat → List Buf → List Buf
  | 0, cb, next, _, acc =>
    if next < cb.length then acc ++ [sl cb next cb.length] else acc
  | fuel+1, cb, next, read, acc =>
    match firstHit (fun b => b == 59) (cb.drop next) with
    | some idx =>
      let p := next + idx
      if p < cb.length - 1 && cb.getD (p+1) 0 == 59 then
        ciFieldsGo fuel cb (p+2) (p+2) (acc ++ [sl cb read p])
      else ciFieldsGo fuel cb (p+1) read acc
    | none =>
      if next < cb.length then acc ++ [sl cb next cb.length] else acc

def ciFields (cb : Buf) : List Buf := ciFieldsGo (cb.length + 2) cb 0 0 []

/-- Line loop of the 8-field `CUSTOM_INFO` branch. -/
def ciLines (c1 c2 : Byte) (ls : List Buf) : Buf :=
  ls.foldl (fun acc l => acc ++ (piMark ++ [c1, c2, 58] ++ l ++ [10])) []

/-- Render of a completed tag given its code, attribute and already rendered
children bytes, mirroring the `match self.code` of `to_bytes`. -/
def renderWith (code : Byte × Byte) (attr : Buf) (cb : Buf) : Buf :=
  if code = (50, 48) then
    [27, 91, 51, 56, 59, 53, 59] ++ decDigits (rgbTo256 attr) ++ [109] ++ cb ++ [27, 91, 48, 109]
  else if code = (50, 49) then
    [27, 91, 52, 56, 59, 53, 59] ++ decDigits (rgbTo256 attr) ++ [109] ++ cb ++ [27, 91, 48, 109]
  else if code = (50, 50) ∨ code = (50, 51) ∨ code = (50, 52) ∨ code = (50, 53) then
    [27, 91, 36, 115, 116, 121, 108, 101, 109] ++ cb ++ [27, 91, 48, 109]
  else if code = (50, 57) then
    [27, 91, 48, 109] ++ cb
  else if code = (49, 48) ∧ attr = specPromptBytes then
    piMark ++ [62] ++ cb ++ [255, 249]
  else if code = (49, 48) ∧ (attr = specSkillBytes ∨ attr = specSpellBytes) then
    cb
  else if code = (49, 48) then
    chanLines attr (splitOn 10 cb).dropLast
  else if code = (49, 49) then
    [60, 99, 108, 101, 97, 114, 62, 10]
  else if code = (53, 48) ∨ code = (53, 49) ∨ code = (53, 50) ∨ code = (53, 51) ∨
      code = (53, 52) ∨ code = (54, 48) ∨ code = (54, 52) ∨ code = (54, 49) ∨
      code = (54, 50) ∨ code = (54, 51) ∨ code = (55, 48) then
    infoWrap code.1 code.2 cb
  else if code = (57, 57) then
    let fields := ciFields cb
    if fields.length = 8 then
      let lines := splitOn 10 (fields.getD 6 [])
      piMark ++ [code.1, code.2, 58] ++
        ((fields.take 6).foldl (fun acc f => acc ++ f ++ [59, 59]) []) ++
        fields.getD 7 [] ++ [59, 59, 10] ++
        ciLines code.1 code.2 (lines.take (max (lines.length - 1) 1))
    else if fields.length = 2 then
      piMark ++ [code.1, code.2, 58] ++ fields.getD 1 [] ++ [10]
    else []
  else if code = (51, 48) ∨ code = (51, 49) then
    cb
  else infoWrap code.1 code.2 cb

mutual

def ccToBytes : CC → Buf
  | .mk code attr children => renderWith code attr (childBytes children)

def childBytes : List (Buf ⊕ CC) → Buf
  | [] => []
  | .inl b :: rest => b ++ childBytes rest
  | .inr c :: rest => ccToBytes c ++ childBytes rest

end

/-! ### The streaming decoder (`BatMudCodec` of `src/codec/mod.rs`)

State: `Text`/`Esc` mode, the scan cursor `next_index`, the open-code stack
and the owned buffer.  One call of `decode` is one `StepRes`:
`.stop` is Rust `Ok(None)`, `.cont` is `Ok(Some(Continue))`, `.emit` is a
`Text`/`Code` frame, `.err` an `Err(..)` return. -/

inductive MudState where
  | text
  | esc

structure Codec where
  state : MudState
  nextIndex : Nat
  stack : List (Byte × Byte)
  buf : Buf

inductive BatFrame where
  | text (b : Buf)
  | code (c : CC)

inductive StepRes where
  | err (c : Codec)
  | stop (c : Codec)
  | emit (f : BatFrame) (c : Codec)
  | cont (c : Codec)

def isBreak (b : Byte) : Bool := b == 10 || b == 27 || b == 255

/-- `BatMudCodec::decode_text`. -/
def decodeText (k : Nat) (stk : List (Byte × Byte)) (b : Buf) : StepRes :=
  match firstHit isBreak (b.drop k) with
  | none => .stop ⟨.text, b.length, stk, b⟩
  | some off =>
    if b.getD (k + off) 0 = 255 then
      if k + off + 1 < b.length then
        .emit (.text (b.take (k + off + 2))) ⟨.text, 0, stk, b.drop (k + off + 2)⟩
      else .stop ⟨.text, k, stk, b⟩
    else if b.getD (k + off) 0 = 27 then
      .cont ⟨.esc, k + off + 1, stk, b⟩
    else if stk = [] then
      .emit (.text (b.take (k + off + 1))) ⟨.text, 0, stk, b.drop (k + off + 1)⟩
    else .cont ⟨.text, k + off + 1, stk, b⟩

/-- `BatMudCodec::decode_esc`.  `k` points at the byte after the `ESC`. -/
def decodeEsc (k : Nat) (stk : List (Byte × Byte)) (b : Buf) : StepRes :=
  if b.length > k + 2 then
    if b.getD k 0 = 60 then
      if k > 1 ∧ stk = [] then
        .emit (.text (b.take (k-1))) ⟨.esc, 1, stk, b.drop (k-1)⟩
      else
        .cont ⟨.text, k + 3, (b.getD (k+1) 0, b.getD (k+2) 0) :: stk, b⟩
    else if b.getD k 0 = 62 then
      match stk with
      | [] => .cont ⟨.text, 0, [], b.take (k-1) ++ b.drop (k+3)⟩
      | op :: rest =>
        if (b.getD (k+1) 0, b.getD (k+2) 0) ≠ op then
          .cont ⟨.text, 0, rest, b.take (k-1) ++ b.drop (k+3)⟩
        else if rest = [] then
          match ccFrom (b.take (k+3)) with
          | .ok cc => .emit (.code cc) ⟨.text, 0, rest, b.drop (k+3)⟩
          | .error _ => .err ⟨.esc, k, rest, b.drop (k+3)⟩
        else .cont ⟨.text, k + 3, rest, b⟩
    else .cont ⟨.text, k + 1, stk, b⟩
  else .stop ⟨.esc, k, stk, b⟩

/-- `BatMudCodec::decode` (one framework call). -/
def decode : Codec → StepRes
  | ⟨.text, k, stk, b⟩ => if b = [] then .stop ⟨.text, k, stk, b⟩ else decodeText k stk b
  | ⟨.esc, k, stk, b⟩ => if b = [] then .stop ⟨.esc, k, stk, b⟩ else decodeEsc k stk b

/-- Termination measure for the drain loop: every productive step (`emit` or
`cont`) either shortens the buffer or keeps it and strictly advances the scan
cursor. -/
def mu (c : Codec) : Nat :=
  c.buf.length * c.buf.length + c.buf.length + (c.buf.length - c.nextIndex)

theorem mu_lt_of_len_lt {c c' : Codec} (h : c'.buf.length < c.buf.length) :
    mu c' < mu c := by
  unfold mu
  have h1 : c'.buf.length - c'.nextIndex ≤ c'.buf.length := by omega
  have h2 : c'.buf.length * c'.buf.length + c'.buf.length ≤
      c'.buf.length * c'.buf.length + c'.buf.length := le_refl _
  have h3 : (c'.buf.length + 1) * (c'.buf.length + 1) ≤ c.buf.length * c.buf.length := by
    have : c'.buf.length + 1 ≤ c.buf.length := h
    exact Nat.mul_le_mul this this
  nlinarith [h1, h3]

theorem mu_lt_of_idx {c c' : Codec} (hlen : c'.buf.length = c.buf.length)
    (hk : c.nextIndex < c'.nextIndex) (hle : c.nextIndex < c.buf.length) :
    mu c' < mu c := by
  unfold mu
  rw [hlen]
  omega

/-- The codec reached by a productive (`emit`/`cont`) step, if any. -/
def prodStep : StepRes → Option Codec
  | .emit _ c => some c
  | .cont c => some c
  | _ => none

theorem decode_measure {c c' : Codec} (h : prodStep (decode c) = some c') :
    mu c' < mu c := by
  obtain ⟨st, k, stk, b⟩ := c
  cases st
  all_goals simp only [decode] at h
  all_goals by_cases hb : b = []
  · rw [if_pos hb] at h
    simp [prodStep] at h
  · rw [if_neg hb] at h
    unfold decodeText at h
    cases hh : firstHit isBreak (b.drop k) with
    | none =>
      rw [hh] at h
      simp [prodStep] at h
    | some off =>
      rw [hh] at h
      simp only at h
      have hoff : off < (b.drop k).length := firstHit_lt hh
      rw [List.length_drop] at hoff
      by_cases h255 : b.getD (k + off) 0 = 255
      · rw [if_pos h255] at h
        by_cases hlt : k + off + 1 < b.length
        · rw [if_pos hlt] at h
          simp only [prodStep] at h
          cases h
          refine mu_lt_of_len_lt ?_
          dsimp only
          simp only [List.length_drop]
          omega
        · rw [if_neg hlt] at h
          simp [prodStep] at h
      · rw [if_neg h255] at h
        by_cases h27 : b.getD (k + off) 0 = 27
        · rw [if_pos h27] at h
          simp only [prodStep] at h
          cases h
          exact mu_lt_of_idx rfl (by dsimp only; omega) (by dsimp only; omega)
        · rw [if_neg h27] at h
          by_cases hstk : stk = []
          · rw [if_pos hstk] at h
            simp only [prodStep] at h
            cases h
            refine mu_lt_of_len_lt ?_
            dsimp only
            simp only [List.length_drop]
            omega
          · rw [if_neg hstk] at h
            simp only [prodStep] at h
            cases h
            exact mu_lt_of_idx rfl (by dsimp only; omega) (by dsimp only; omega)
  · rw [if_pos hb] at h
    simp [prodStep] at h
  · rw [if_neg hb] at h
    unfold decodeEsc at h
    by_cases hlen : b.length > k + 2
    · rw [if_pos hlen] at h
      by_cases h60 : b.getD k 0 = 60
      · rw [if_pos h60] at h
        by_cases hc : k > 1 ∧ stk = []
        · rw [if_pos hc] at h
          simp only [prodStep] at h
          cases h
          have hk1 := hc.1
          refine mu_lt_of_len_lt ?_
          dsimp only
          simp only [List.length_drop]
          omega
        · rw [if_neg hc] at h
          simp only [prodStep] at h
          cases h
          exact mu_lt_of_idx rfl (by dsimp only; omega) (by dsimp only; omega)
      · rw [if_neg h60] at h
        by_cases h62 : b.getD k 0 = 62
        · rw [if_pos h62] at h
          cases stk with
          | nil =>
            simp only [prodStep] at h
            cases h
            refine mu_lt_of_len_lt ?_
            dsimp only
            simp only [List.length_append, List.length_take, List.length_drop]
            omega
          | cons op rest =>
            simp only at h
            by_cases hne : (b.getD (k+1) 0, b.getD (k+2) 0) ≠ op
            · rw [if_pos hne] at h
              simp only [prodStep] at h
              cases h
              refine mu_lt_of_len_lt ?_
              dsimp only
              simp only [List.length_append, List.length_take, List.length_drop]
              omega
            · rw [if_neg hne] at h
              by_cases hre : rest = []
              · rw [if_pos hre] at h
                cases hcc : ccFrom (b.take (k+3)) with
                | ok cc =>
                  rw [hcc] at h
                  simp only [prodStep] at h
                  cases h
                  refine mu_lt_of_len_lt ?_
                  dsimp only
                  simp only [List.length_drop]
                  omega
                | error e =>
                  rw [hcc] at h
                  simp [prodStep] at h
              · rw [if_neg hre] at h
                simp only [prodStep] at h
                cases h
                exact mu_lt_of_idx rfl (by dsimp only; omega) (by dsimp only; omega)
        · rw [if_neg h62] at h
          simp only [prodStep] at h
          cases h
          exact mu_lt_of_idx rfl (by dsimp only; omega) (by dsimp only; omega)
    · rw [if_neg hlen] at h
      simp [prodStep] at h

theorem decode_measure_emit {c : Codec} {f : BatFrame} {c' : Codec}
    (h : decode c = .emit f c') : mu c' < mu c := by
  apply decode_measure
  rw [h]
  rfl

theorem decode_measure_cont {c : Codec} {c' : Codec}
    (h : decode c = .cont c') : mu c' < mu c := by
  apply decode_measure
  rw [h]
  rfl

/-- Fuel-indexed drain loop (the `while let Ok(Some(frame))` driver); with
enough fuel it coincides with `drain` below and lets concrete runs evaluate
by `rfl`/`decide`. -/
def drainF : Nat → Codec → List BatFrame × Codec × Bool
  | 0, c => ([], c, false)
  | fuel+1, c =>
    match decode c with
    | .err c' => ([], c', false)
    | .stop c' => ([], c', true)
    | .emit f c' =>
      let r := drainF fuel c'
      (f :: r.1, r.2.1, r.2.2)
    | .cont c' => drainF fuel c'

/-- Drain the decoder until it reports `Ok(None)` (flag `true`) or an error
(flag `false`), collecting the emitted frames. -/
def drain (c : Codec) : List BatFrame × Codec × Bool :=
  match h : decode c with
  | .err c' => ([], c', false)
  | .stop c' => ([], c', true)
  | .emit f c' =>
    let r := drain c'
    (f :: r.1, r.2.1, r.2.2)
  | .cont c' => drain c'
termination_by mu c
decreasing_by
  · exact decode_measure_emit h
  · exact decode_measure_cont h

theorem drainF_eq_drain : ∀ fuel c, mu c < fuel → drainF fuel c = drain c := by
  intro fuel
  induction fuel with
  | zero =>
    intro c h
    omega
  | succ n ih =>
    intro c h
    rw [drain]
    cases hd : decode c with
    | err c' => simp [drainF, hd]
    | stop c' => simp [drainF, hd]
    | emit f c' =>
      have := decode_measure_emit hd
      simp only [drainF, hd]
      rw [ih c' (by omega)]
    | cont c' =>
      have := decode_measure_cont hd
      simp only [drainF, hd]
      rw [ih c' (by omega)]

theorem drain_eval (c : Codec) : drain c = drainF (mu c + 1) c :=
  (drainF_eq_drain (mu c + 1) c (by omega)).symm

theorem drain_stop {c c' : Codec} (h : decode c = .stop c') :
    drain c = ([], c', true) := by
  rw [drain, h]

theorem drain_err {c c' : Codec} (h : decode c = .err c') :
    drain c = ([], c', false) := by
  rw [drain, h]

theorem drain_cont {c c' : Codec} (h : decode c = .cont c') :
    drain c = drain c' := by
  rw [drain, h]

theorem drain_emit {c c' : Codec} {f : BatFrame} (h : decode c = .emit f c') :
    drain c = (f :: (drain c').1, (drain c').2.1, (drain c').2.2) := by
  rw [drain, h]

/-- Append further input to the decoder's buffer (the caller's
`buf.put(more)` between framework calls). -/
def extBuf (c : Codec) (e : Buf) : Codec := ⟨c.state, c.nextIndex, c.stack, c.buf ++ e⟩

/-- The step the extended decoder must take when the unextended decoder takes
the given step: productive steps and errors are unchanged (with the extra
bytes riding along in the buffer), a `stop` resumes on the extended buffer. -/
def extStep (e : Buf) (c : Codec) : StepRes :=
  match decode c with
  | .stop c₁ => decode (extBuf c₁ e)
  | .err c₁ => .err (extBuf c₁ e)
  | .emit f c₁ => .emit f (extBuf c₁ e)
  | .cont c₁ => .cont (extBuf c₁ e)

theorem append_ne_nil {b e : Buf} (hb : b ≠ []) : b ++ e ≠ [] := by
  cases b with
  | nil => exact absurd rfl hb
  | cons x xs => simp

/-- Two decoder states that differ at most in the scan cursor, provided the
skipped region of a `Text`-state buffer holds no break byte.  Such states are
observationally equivalent: the cursor is pure scan bookkeeping. -/
def cRel (x y : Codec) : Prop :=
  x.state = y.state ∧ x.stack = y.stack ∧ x.buf = y.buf ∧
  (x.nextIndex = y.nextIndex ∨
    (x.state = .text ∧ x.nextIndex ≤ x.buf.length ∧ y.nextIndex ≤ x.buf.length ∧
      ∀ i, min x.nextIndex y.nextIndex ≤ i → i < max x.nextIndex y.nextIndex →
        isBreak (x.buf.getD i 0) = false))

/-- Result relation: identical constructor и frame, `cRel`-related codecs. -/
def resRel : StepRes → StepRes → Prop
  | .err c, .err c' => cRel c c'
  | .stop c, .stop c' => cRel c c'
  | .emit f c, .emit f' c' => f = f' ∧ cRel c c'
  | .cont c, .cont c' => cRel c c'
  | _, _ => False

theorem cRel_refl (c : Codec) : cRel c c := ⟨rfl, rfl, rfl, Or.inl rfl⟩

theorem cRel_of_eq {c c' : Codec} (h : c = c') : cRel c c' := h ▸ cRel_refl c

theorem cRel_symm {x y : Codec} (h : cRel x y) : cRel y x := by
  obtain ⟨h1, h2, h3, h4⟩ := h
  refine ⟨h1.symm, h2.symm, h3.symm, ?_⟩
  rcases h4 with h4 | ⟨ht, ha, hb, hr⟩
  · exact Or.inl h4.symm
  · refine Or.inr ⟨h1 ▸ ht, h3 ▸ hb, h3 ▸ ha, ?_⟩
    intro i hi1 hi2
    rw [← h3]
    exact hr i (by omega) (by omega)

theorem cRel_trans {x y z : Codec} (hxy : cRel x y) (hyz : cRel y z) : cRel x z := by
  obtain ⟨h1, h2, h3, h4⟩ := hxy
  obtain ⟨g1, g2, g3, g4⟩ := hyz
  refine ⟨h1.trans g1, h2.trans g2, h3.trans g3, ?_⟩
  rcases h4 with h4 | ⟨ht, ha, hb, hr⟩
  · rcases g4 with g4 | ⟨gt, ga, gb, gr⟩
    · exact Or.inl (h4.trans g4)
    · refine Or.inr ⟨h1 ▸ gt, ?_, ?_, ?_⟩
      · rw [h4, h3]
        exact ga
      · rw [h3]
        exact gb
      · intro i hi1 hi2
        rw [h3]
        exact gr i (by omega) (by omega)
  · rcases g4 with g4 | ⟨gt, ga, gb, gr⟩
    · refine Or.inr ⟨ht, ha, ?_, ?_⟩
      · rw [← g4]
        exact hb
      · intro i hi1 hi2
        exact hr i (by omega) (by omega)
    · refine Or.inr ⟨ht, ha, h3 ▸ gb, ?_⟩
      intro i hi1 hi2
      by_cases hcase : min x.nextIndex y.nextIndex ≤ i ∧ i < max x.nextIndex y.nextIndex
      · exact hr i hcase.1 hcase.2
      · rw [h3]
        exact gr i (by omega) (by omega)

theorem resRel_refl (r : StepRes) : resRel r r := by
  cases r with
  | err c => exact cRel_refl c
  | stop c => exact cRel_refl c
  | emit f c => exact ⟨rfl, cRel_refl c⟩
  | cont c => exact cRel_refl c

theorem resRel_of_eq {r r' : StepRes} (h : r = r') : resRel r r' := h ▸ resRel_refl r

/-- Scanning may resume anywhere inside an already-scanned break-free region. -/
theorem scan_shift {b : Buf} (d : Nat) : ∀ k, (k + d ≤ b.length) →
    (∀ i, k ≤ i → i < k + d → isBreak (b.getD i 0) = false) →
    firstHit isBreak (b.drop k) =
      (firstHit isBreak (b.drop (k + d))).map (· + d) := by
  induction d with
  | zero =>
    intro k _ _
    simp only [Nat.add_zero]
    cases firstHit isBreak (b.drop k) <;> simp
  | succ n ih =>
    intro k hkd hreg
    have hklen : k < b.length := by omega
    have hdropk : b.drop k = b.getD k 0 :: b.drop (k + 1) := by
      rw [List.getD_eq_getElem?_getD, List.getElem?_eq_getElem hklen]
      simp only [Option.getD_some]
      exact (List.drop_eq_getElem_cons hklen).symm ▸ rfl
    rw [hdropk, firstHit]
    rw [hreg k (le_refl k) (by omega)]
    simp only [Bool.false_eq_true, if_false]
    rw [ih (k + 1) (by omega) (fun i h1 h2 => hreg i (by omega) (by omega))]
    have : k + 1 + n = k + (n + 1) := by omega
    rw [this]
    cases firstHit isBreak (b.drop (k + (n + 1))) with
    | none => rfl
    | some j =>
      simp only [Option.map_some']
      exact congrArg some (by omega)

/-- `decode_text` at two cursors separated by a break-free region gives
related results. -/
theorem decodeText_rel {b : Buf} {stk : List (Byte × Byte)} {k k' : Nat}
    (hkk : k ≤ k') (hk2 : k' ≤ b.length)
    (hreg : ∀ i, k ≤ i → i < k' → isBreak (b.getD i 0) = false) :
    resRel (decodeText k stk b) (decodeText k' stk b) := by
  have hshift := @scan_shift b (k' - k) k (by omega)
    (fun i h1 h2 => hreg i h1 (by omega))
  have hplus : k + (k' - k) = k' := by omega
  rw [hplus] at hshift
  unfold decodeText
  rw [hshift]
  cases hfe : firstHit isBreak (b.drop k') with
  | none => exact resRel_refl _
  | some j =>
    simp only [Option.map_some']
    have hidx : k + (j + (k' - k)) = k' + j := by omega
    rw [hidx]
    by_cases h255 : b.getD (k' + j) 0 = 255
    · rw [if_pos h255, if_pos h255]
      by_cases hlt : k' + j + 1 < b.length
      · rw [if_pos hlt, if_pos hlt]
        exact resRel_refl _
      · rw [if_neg hlt, if_neg hlt]
        refine ⟨rfl, rfl, rfl, Or.inr ⟨rfl, by dsimp; omega, by dsimp; omega, ?_⟩⟩
        intro i hi1 hi2
        dsimp at hi1 hi2 ⊢
        exact hreg i (by omega) (by omega)
    · rw [if_neg h255, if_neg h255]
      exact resRel_refl _

/-- One decoder step on `cRel`-related states gives related results. -/
theorem decode_resRel {x y : Codec} (h : cRel x y) : resRel (decode x) (decode y) := by
  obtain ⟨st, k, stk, b⟩ := x
  obtain ⟨st', k', stk', b'⟩ := y
  obtain ⟨hst, hstk, hbuf, hor⟩ := h
  dsimp at hst hstk hbuf
  subst hst
  subst hstk
  subst hbuf
  rcases hor with heq | ⟨htx, hk1, hk2, hreg⟩
  · dsimp at heq
    subst heq
    exact resRel_refl _
  · dsimp at htx hk1 hk2 hreg
    subst htx
    simp only [decode]
    by_cases hb : b = []
    · rw [if_pos hb, if_pos hb]
      exact ⟨rfl, rfl, rfl, Or.inr ⟨rfl, hk1, hk2, hreg⟩⟩
    · rw [if_neg hb, if_neg hb]
      rcases Nat.le_total k k' with hkk | hkk
      · exact decodeText_rel hkk (by omega)
          (fun i h1 h2 => hreg i (by omega) (by omega))
      · have hsym := @decodeText_rel b stk k' k hkk (by omega)
          (fun i h1 h2 => hreg i (by omega) (by omega))
        cases hx : decodeText k stk b <;> cases hy : decodeText k' stk b <;>
          rw [hx, hy] at hsym <;> simp only [resRel] at hsym ⊢ <;>
          first
          | exact cRel_symm hsym
          | exact ⟨hsym.1.symm, cRel_symm hsym.2⟩
          | exact hsym
          | exact hsym.elim

/-- `next_index` never exceeds the buffer. -/
def inv (c : Codec) : Prop := c.nextIndex ≤ c.buf.length

theorem cRel_inv {x y : Codec} (h : cRel x y) (hx : inv x) : inv y := by
  obtain ⟨h1, h2, h3, h4⟩ := h
  have hlen : x.buf.length = y.buf.length := by rw [h3]
  rcases h4 with h4 | ⟨_, _, hb, _⟩
  · unfold inv at *
    omega
  · unfold inv at *
    omega

theorem cRel_ext {x y : Codec} (e : Buf) (h : cRel x y) :
    cRel (extBuf x e) (extBuf y e) := by
  obtain ⟨h1, h2, h3, h4⟩ := h
  refine ⟨h1, h2, by simp only [extBuf]; rw [h3], ?_⟩
  rcases h4 with h4 | ⟨ht, ha, hb, hr⟩
  · exact Or.inl h4
  · refine Or.inr ⟨ht, ?_, ?_, ?_⟩
    · simp only [extBuf, List.length_append]
      omega
    · simp only [extBuf, List.length_append]
      omega
    · intro i hi1 hi2
      simp only [extBuf] at hi1 hi2 ⊢
      rw [getD_append_lt (by omega)]
      exact hr i hi1 hi2

theorem extBuf_inv {c : Codec} (e : Buf) (h : inv c) : inv (extBuf c e) := by
  unfold inv extBuf at *
  simp only [List.length_append]
  omega

/-- Invariant preservation for non-error steps. -/
theorem decode_inv {c c' : Codec} (hinv : inv c)
    (h : prodStep (decode c) = some c' ∨ decode c = .stop c') : inv c' := by
  obtain ⟨st, k, stk, b⟩ := c
  unfold inv at hinv ⊢
  dsimp at hinv
  cases st
  all_goals simp only [decode] at h
  all_goals by_cases hb : b = []
  · rw [if_pos hb] at h
    rcases h with h | h
    · simp [prodStep] at h
    · cases h
      exact hinv
  · rw [if_neg hb] at h
    unfold decodeText at h
    cases hh : firstHit isBreak (b.drop k) with
    | none =>
      rw [hh] at h
      rcases h with h | h
      · simp [prodStep] at h
      · cases h
        dsimp
        exact le_refl _
    | some off =>
      rw [hh] at h
      simp only at h
      have hoff : off < (b.drop k).length := firstHit_lt hh
      rw [List.length_drop] at hoff
      by_cases h255 : b.getD (k + off) 0 = 255
      · rw [if_pos h255] at h
        by_cases hlt : k + off + 1 < b.length
        · rw [if_pos hlt] at h
          rcases h with h | h
          · simp only [prodStep] at h
            cases h
            dsimp
            omega
          · cases h
        · rw [if_neg hlt] at h
          rcases h with h | h
          · simp [prodStep] at h
          · cases h
            dsimp
            omega
      · rw [if_neg h255] at h
        by_cases h27 : b.getD (k + off) 0 = 27
        · rw [if_pos h27] at h
          rcases h with h | h
          · simp only [prodStep] at h
            cases h
            dsimp
            omega
          · cases h
        · rw [if_neg h27] at h
          by_cases hstk : stk = []
          · rw [if_pos hstk] at h
            rcases h with h | h
            · simp only [prodStep] at h
              cases h
              dsimp
              omega
            · cases h
          · rw [if_neg hstk] at h
            rcases h with h | h
            · simp only [prodStep] at h
              cases h
              dsimp
              omega
            · cases h
  · rw [if_pos hb] at h
    rcases h with h | h
    · simp [prodStep] at h
    · cases h
      exact hinv
  · rw [if_neg hb] at h
    unfold decodeEsc at h
    by_cases hlen : b.length > k + 2
    · rw [if_pos hlen] at h
      by_cases h60 : b.getD k 0 = 60
      · rw [if_pos h60] at h
        by_cases hc : k > 1 ∧ stk = []
        · rw [if_pos hc] at h
          rcases h with h | h
          · simp only [prodStep] at h
            cases h
            dsimp
            simp only [List.length_drop]
            omega
          · cases h
        · rw [if_neg hc] at h
          rcases h with h | h
          · simp only [prodStep] at h
            cases h
            dsimp
            omega
          · cases h
      · rw [if_neg h60] at h
        by_cases h62 : b.getD k 0 = 62
        · rw [if_pos h62] at h
          cases stk with
          | nil =>
            simp only at h
            rcases h with h | h
            · simp only [prodStep] at h
              cases h
              dsimp
              omega
            · cases h
          | cons op rest =>
            simp only at h
            by_cases hne : (b.getD (k+1) 0, b.getD (k+2) 0) ≠ op
            · rw [if_pos hne] at h
              rcases h with h | h
              · simp only [prodStep] at h
                cases h
                dsimp
                omega
              · cases h
            · rw [if_neg hne] at h
              by_cases hre : rest = []
              · rw [if_pos hre] at h
                cases hcc : ccFrom (b.take (k+3)) with
                | ok cc =>
                  rw [hcc] at h
                  rcases h with h | h
                  · simp only [prodStep] at h
                    cases h
                    dsimp
                    omega
                  · cases h
                | error er =>
                  rw [hcc] at h
                  rcases h with h | h
                  · simp [prodStep] at h
                  · cases h
              · rw [if_neg hre] at h
                rcases h with h | h
                · simp only [prodStep] at h
                  cases h
                  dsimp
                  omega
                · cases h
        · rw [if_neg h62] at h
          rcases h with h | h
          · simp only [prodStep] at h
            cases h
            dsimp
            omega
          · cases h
    · rw [if_neg hlen] at h
      rcases h with h | h
      · simp [prodStep] at h
      · cases h
        exact hinv

/-- A `stop` result is a fixed point of `decode`. -/
theorem stop_fixed {c c₁ : Codec} (h : decode c = .stop c₁) : decode c₁ = .stop c₁ := by
  obtain ⟨st, k, stk, b⟩ := c
  cases st
  all_goals simp only [decode] at h
  all_goals by_cases hb : b = []
  · rw [if_pos hb] at h
    cases h
    simp only [decode]
    rw [if_pos hb]
  · rw [if_neg hb] at h
    unfold decodeText at h
    cases hh : firstHit isBreak (b.drop k) with
    | none =>
      rw [hh] at h
      cases h
      simp only [decode]
      rw [if_neg hb]
      unfold decodeText
      have : firstHit isBreak (b.drop b.length) = none := by
        rw [List.drop_length]
        rfl
      rw [this]
    | some off =>
      rw [hh] at h
      simp only at h
      by_cases h255 : b.getD (k + off) 0 = 255
      · rw [if_pos h255] at h
        by_cases hlt : k + off + 1 < b.length
        · rw [if_pos hlt] at h
          cases h
        · rw [if_neg hlt] at h
          cases h
          simp only [decode]
          rw [if_neg hb]
          unfold decodeText
          rw [hh]
          simp only
          rw [if_pos h255, if_neg hlt]
      · rw [if_neg h255] at h
        by_cases h27 : b.getD (k + off) 0 = 27
        · rw [if_pos h27] at h
          cases h
        · rw [if_neg h27] at h
          by_cases hstk : stk = []
          · rw [if_pos hstk] at h
            cases h
          · rw [if_neg hstk] at h
            cases h
  · rw [if_pos hb] at h
    cases h
    simp only [decode]
    rw [if_pos hb]
  · rw [if_neg hb] at h
    unfold decodeEsc at h
    by_cases hlen : b.length > k + 2
    · rw [if_pos hlen] at h
      by_cases h60 : b.getD k 0 = 60
      · rw [if_pos h60] at h
        by_cases hc : k > 1 ∧ stk = []
        · rw [if_pos hc] at h
          cases h
        · rw [if_neg hc] at h
          cases h
      · rw [if_neg h60] at h
        by_cases h62 : b.getD k 0 = 62
        · rw [if_pos h62] at h
          cases stk with
          | nil =>
            simp only at h
            cases h
          | cons op rest =>
            simp only at h
            by_cases hne : (b.getD (k+1) 0, b.getD (k+2) 0) ≠ op
            · rw [if_pos hne] at h
              cases h
            · rw [if_neg hne] at h
              by_cases hre : rest = []
              · rw [if_pos hre] at h
                cases hcc : ccFrom (b.take (k+3)) with
                | ok cc =>
                  rw [hcc] at h
                  cases h
                | error er =>
                  rw [hcc] at h
                  cases h
              · rw [if_neg hre] at h
                cases h
        · rw [if_neg h62] at h
          cases h
    · rw [if_neg hlen] at h
      cases h
      simp only [decode]
      rw [if_neg hb]
      unfold decodeEsc
      rw [if_neg hlen]

/-- A `stop` result is `cRel`-related to the state it came from. -/
theorem stop_rel {c c₁ : Codec} (hinv : inv c) (h : decode c = .stop c₁) : cRel c c₁ := by
  obtain ⟨st, k, stk, b⟩ := c
  unfold inv at hinv
  dsimp at hinv
  cases st
  all_goals simp only [decode] at h
  all_goals by_cases hb : b = []
  · rw [if_pos hb] at h
    cases h
    exact cRel_refl _
  · rw [if_neg hb] at h
    unfold decodeText at h
    cases hh : firstHit isBreak (b.drop k) with
    | none =>
      rw [hh] at h
      cases h
      refine ⟨rfl, rfl, rfl, Or.inr ⟨rfl, by dsimp; omega, by dsimp; omega, ?_⟩⟩
      intro i hi1 hi2
      dsimp at hi1 hi2 ⊢
      have hik : k ≤ i := by omega
      have hil : i < b.length := by omega
      have := (firstHit_none_iff.mp hh) ((b.drop k).getD (i - k) 0)
        (getD_mem (by simp only [List.length_drop]; omega))
      rw [getD_drop] at this
      have hik2 : k + (i - k) = i := by omega
      rw [hik2] at this
      exact this
    | some off =>
      rw [hh] at h
      simp only at h
      by_cases h255 : b.getD (k + off) 0 = 255
      · rw [if_pos h255] at h
        by_cases hlt : k + off + 1 < b.length
        · rw [if_pos hlt] at h
          cases h
        · rw [if_neg hlt] at h
          cases h
          exact cRel_refl _
      · rw [if_neg h255] at h
        by_cases h27 : b.getD (k + off) 0 = 27
        · rw [if_pos h27] at h
          cases h
        · rw [if_neg h27] at h
          by_cases hstk : stk = []
          · rw [if_pos hstk] at h
            cases h
          · rw [if_neg hstk] at h
            cases h
  · rw [if_pos hb] at h
    cases h
    exact cRel_refl _
  · rw [if_neg hb] at h
    unfold decodeEsc at h
    by_cases hlen : b.length > k + 2
    · rw [if_pos hlen] at h
      by_cases h60 : b.getD k 0 = 60
      · rw [if_pos h60] at h
        by_cases hc : k > 1 ∧ stk = []
        · rw [if_pos hc] at h
          cases h
        · rw [if_neg hc] at h
          cases h
      · rw [if_neg h60] at h
        by_cases h62 : b.getD k 0 = 62
        · rw [if_pos h62] at h
          cases stk with
          | nil =>
            simp only at h
            cases h
          | cons op rest =>
            simp only at h
            by_cases hne : (b.getD (k+1) 0, b.getD (k+2) 0) ≠ op
            · rw [if_pos hne] at h
              cases h
            · rw [if_neg hne] at h
              by_cases hre : rest = []
              · rw [if_pos hre] at h
                cases hcc : ccFrom (b.take (k+3)) with
                | ok cc =>
                  rw [hcc] at h
                  cases h
                | error er =>
                  rw [hcc] at h
                  cases h
              · rw [if_neg hre] at h
                cases h
        · rw [if_neg h62] at h
          cases h
    · rw [if_neg hlen] at h
      cases h
      exact cRel_refl _

/-- One decoder step commutes with appending further bytes to the buffer, up
to the scan-cursor equivalence. -/
theorem decode_extend {c : Codec} (e : Buf) (hk : c.nextIndex ≤ c.buf.length) :
    resRel (decode (extBuf c e)) (extStep e c) := by
  obtain ⟨st, k, stk, b⟩ := c
  simp only [extBuf] at *
  by_cases hb : b = []
  · subst hb
    cases st
    all_goals (simp [extStep, decode, extBuf]; exact resRel_refl _)
  · have hbe : b ++ e ≠ [] := append_ne_nil hb
    cases st
    · unfold extStep
      simp only [decode]
      rw [if_neg hb, if_neg hbe]
      have hdrop : (b ++ e).drop k = b.drop k ++ e := drop_append_le hk
      cases hh : firstHit isBreak (b.drop k) with
      | some off =>
        have hoff : off < (b.drop k).length := firstHit_lt hh
        rw [List.length_drop] at hoff
        have hscan : firstHit isBreak ((b ++ e).drop k) = some off := by
          rw [hdrop]
          exact firstHit_append_some hh
        unfold decodeText
        rw [hh, hscan]
        simp only
        have hget : (b ++ e).getD (k + off) 0 = b.getD (k + off) 0 :=
          getD_append_lt (by omega)
        rw [hget]
        by_cases h255 : b.getD (k + off) 0 = 255
        · rw [if_pos h255, if_pos h255]
          by_cases hlt : k + off + 1 < b.length
          · have hlt2 : k + off + 1 < (b ++ e).length := by
              rw [List.length_append]
              omega
            rw [if_pos hlt2, if_pos hlt]
            simp only [extBuf]
            rw [take_append_le (by omega), drop_append_le (by omega)]
            exact resRel_refl _
          · rw [if_neg hlt]
            simp only [extBuf]
            rw [if_neg hbe, hscan]
            simp only
            rw [hget, if_pos h255]
            exact resRel_refl _
        · rw [if_neg h255, if_neg h255]
          by_cases h27 : b.getD (k + off) 0 = 27
          · rw [if_pos h27, if_pos h27]
            simp only [extBuf]
            exact resRel_refl _
          · rw [if_neg h27, if_neg h27]
            by_cases hstk : stk = []
            · rw [if_pos hstk, if_pos hstk]
              simp only [extBuf]
              rw [take_append_le (by omega), drop_append_le (by omega)]
              exact resRel_refl _
            · rw [if_neg hstk, if_neg hstk]
              simp only [extBuf]
              exact resRel_refl _
      | none =>
        unfold decodeText
        rw [hh]
        simp only [extBuf]
        rw [if_neg hbe]
        have hres := @decodeText_rel (b ++ e) stk k b.length hk
          (by simp only [List.length_append]; omega) ?hreg
        case hreg =>
          intro i hi1 hi2
          rw [getD_append_lt (by omega)]
          have := (firstHit_none_iff.mp hh) ((b.drop k).getD (i - k) 0)
            (getD_mem (by simp only [List.length_drop]; omega))
          rw [getD_drop] at this
          have hik2 : k + (i - k) = i := by omega
          rw [hik2] at this
          exact this
        exact hres
    · unfold extStep
      simp only [decode]
      rw [if_neg hb, if_neg hbe]
      unfold decodeEsc
      by_cases hlen : b.length > k + 2
      · have hlen2 : (b ++ e).length > k + 2 := by
          rw [List.length_append]
          omega
        rw [if_pos hlen, if_pos hlen2]
        have hg0 : (b ++ e).getD k 0 = b.getD k 0 := getD_append_lt (by omega)
        have hg1 : (b ++ e).getD (k+1) 0 = b.getD (k+1) 0 := getD_append_lt (by omega)
        have hg2 : (b ++ e).getD (k+2) 0 = b.getD (k+2) 0 := getD_append_lt (by omega)
        rw [hg0, hg1, hg2]
        by_cases h60 : b.getD k 0 = 60
        · rw [if_pos h60, if_pos h60]
          by_cases hc : k > 1 ∧ stk = []
          · rw [if_pos hc, if_pos hc]
            simp only [extBuf]
            rw [take_append_le (by omega), drop_append_le (by omega)]
            exact resRel_refl _
          · rw [if_neg hc, if_neg hc]
            simp only [extBuf]
            exact resRel_refl _
        · rw [if_neg h60, if_neg h60]
          by_cases h62 : b.getD k 0 = 62
          · rw [if_pos h62, if_pos h62]
            cases stk with
            | nil =>
              simp only [extBuf]
              rw [take_append_le (by omega), drop_append_le (by omega),
                List.append_assoc]
              exact resRel_refl _
            | cons op rest =>
              simp only
              by_cases hne : (b.getD (k+1) 0, b.getD (k+2) 0) ≠ op
              · rw [if_pos hne, if_pos hne]
                simp only [extBuf]
                rw [take_append_le (by omega), drop_append_le (by omega),
                  List.append_assoc]
                exact resRel_refl _
              · rw [if_neg hne, if_neg hne]
                by_cases hre : rest = []
                · rw [if_pos hre, if_pos hre]
                  rw [take_append_le (show k + 3 ≤ b.length by omega)]
                  cases hcc : ccFrom (b.take (k+3)) with
                  | ok cc =>
                    simp only [extBuf]
                    rw [drop_append_le (by omega)]
                    exact resRel_refl _
                  | error er =>
                    simp only [extBuf]
                    rw [drop_append_le (by omega)]
                    exact resRel_refl _
                · rw [if_neg hre, if_neg hre]
                  simp only [extBuf]
                  exact resRel_refl _
          · rw [if_neg h62, if_neg h62]
            simp only [extBuf]
            exact resRel_refl _
      · rw [if_neg hlen]
        simp only [extBuf]
        rw [if_neg hbe]
        exact resRel_refl _

theorem drain_resRel_fuel : ∀ n x y, mu x < n → resRel (decode x) (decode y) →
    (drain x).1 = (drain y).1 ∧ (drain x).2.2 = (drain y).2.2 ∧
      cRel (drain x).2.1 (drain y).2.1 := by
  intro n
  induction n with
  | zero =>
    intro x y hn
    omega
  | succ n ih =>
    intro x y hn h
    cases hdx : decode x <;> cases hdy : decode y <;> rw [hdx, hdy] at h <;>
      simp only [resRel] at h
    · rw [drain_err hdx, drain_err hdy]
      exact ⟨rfl, rfl, h⟩
    · rw [drain_stop hdx, drain_stop hdy]
      exact ⟨rfl, rfl, h⟩
    · obtain ⟨hf, hc⟩ := h
      subst hf
      rw [drain_emit hdx, drain_emit hdy]
      have hm := decode_measure_emit hdx
      have ih' := ih _ _ (by omega) (decode_resRel hc)
      exact ⟨by rw [ih'.1], ih'.2.1, ih'.2.2⟩
    · have hm := decode_measure_cont hdx
      rw [drain_cont hdx, drain_cont hdy]
      exact ih _ _ (by omega) (decode_resRel h)

theorem drain_resRel {x y : Codec} (h : resRel (decode x) (decode y)) :
    (drain x).1 = (drain y).1 ∧ (drain x).2.2 = (drain y).2.2 ∧
      cRel (drain x).2.1 (drain y).2.1 :=
  drain_resRel_fuel (mu x + 1) x y (by omega) h

theorem drain_end_stop_fuel : ∀ n c, mu c < n → (drain c).2.2 = true →
    decode (drain c).2.1 = .stop (drain c).2.1 := by
  intro n
  induction n with
  | zero =>
    intro c hn
    omega
  | succ n ih =>
    intro c hn hflag
    cases hd : decode c with
    | err c₁ =>
      rw [drain_err hd] at hflag
      cases hflag
    | stop c₁ =>
      rw [drain_stop hd] at hflag ⊢
      exact stop_fixed hd
    | emit f c₁ =>
      have hm := decode_measure_emit hd
      rw [drain_emit hd] at hflag ⊢
      exact ih c₁ (by omega) hflag
    | cont c₁ =>
      have hm := decode_measure_cont hd
      rw [drain_cont hd] at hflag ⊢
      exact ih c₁ (by omega) hflag

theorem drain_end_stop {c : Codec} (h : (drain c).2.2 = true) :
    decode (drain c).2.1 = .stop (drain c).2.1 :=
  drain_end_stop_fuel (mu c + 1) c (by omega) h

theorem drain_inv_fuel : ∀ n c, mu c < n → inv c → (drain c).2.2 = true →
    inv (drain c).2.1 := by
  intro n
  induction n with
  | zero =>
    intro c hn
    omega
  | succ n ih =>
    intro c hn hinv hflag
    cases hd : decode c with
    | err c₁ =>
      rw [drain_err hd] at hflag
      cases hflag
    | stop c₁ =>
      rw [drain_stop hd] at hflag ⊢
      exact decode_inv hinv (Or.inr hd)
    | emit f c₁ =>
      have hm := decode_measure_emit hd
      rw [drain_emit hd] at hflag ⊢
      exact ih c₁ (by omega) (decode_inv hinv (Or.inl (by rw [hd]; rfl))) hflag
    | cont c₁ =>
      have hm := decode_measure_cont hd
      rw [drain_cont hd] at hflag ⊢
      exact ih c₁ (by omega) (decode_inv hinv (Or.inl (by rw [hd]; rfl))) hflag

theorem drain_inv {c : Codec} (hinv : inv c) (h : (drain c).2.2 = true) :
    inv (drain c).2.1 :=
  drain_inv_fuel (mu c + 1) c (by omega) hinv h

/-- Draining the extended buffer equals draining the original buffer and then
resuming on the appended bytes (frames concatenate; flags agree; the final
states are scan-cursor equivalent). -/
theorem drain_append_fuel : ∀ n c e, mu c < n → inv c →
    ((drain c).2.2 = true →
      (drain (extBuf c e)).1 = (drain c).1 ++ (drain (extBuf (drain c).2.1 e)).1 ∧
      (drain (extBuf c e)).2.2 = (drain (extBuf (drain c).2.1 e)).2.2 ∧
      cRel (drain (extBuf c e)).2.1 (drain (extBuf (drain c).2.1 e)).2.1) ∧
    ((drain c).2.2 = false →
      (drain (extBuf c e)).1 = (drain c).1 ∧ (drain (extBuf c e)).2.2 = false) := by
  intro n
  induction n with
  | zero =>
    intro c e hn
    omega
  | succ n ih =>
    intro c e hn hinv
    have hext := decode_extend e hinv
    cases hd : decode c with
    | err c₁ =>
      unfold extStep at hext
      rw [hd] at hext
      simp only at hext
      constructor
      · intro hflag
        rw [drain_err hd] at hflag
        cases hflag
      · intro _
        rw [drain_err hd]
        cases hd2 : decode (extBuf c e) <;> rw [hd2] at hext <;>
          simp only [resRel] at hext
        rw [drain_err hd2]
        exact ⟨rfl, rfl⟩
    | stop c₁ =>
      unfold extStep at hext
      rw [hd] at hext
      simp only at hext
      have h3 := drain_resRel hext
      constructor
      · intro _
        rw [drain_stop hd]
        simpa using h3
      · intro hflag
        rw [drain_stop hd] at hflag
        cases hflag
    | emit f c₁ =>
      unfold extStep at hext
      rw [hd] at hext
      simp only at hext
      cases hd2 : decode (extBuf c e) <;> rw [hd2] at hext <;>
        simp only [resRel] at hext
      obtain ⟨hf, hc⟩ := hext
      subst hf
      have hm := decode_measure_emit hd
      have hinv1 : inv c₁ := decode_inv hinv (Or.inl (by rw [hd]; rfl))
      have hrel := drain_resRel (decode_resRel hc)
      have ih' := ih c₁ e (by omega) hinv1
      rw [drain_emit hd, drain_emit hd2]
      constructor
      · intro hflag
        simp only at hflag
        refine ⟨?_, ?_, ?_⟩
        · simp only [List.cons_append]
          rw [hrel.1, (ih'.1 hflag).1]
        · rw [hrel.2.1, (ih'.1 hflag).2.1]
        · exact cRel_trans hrel.2.2 (ih'.1 hflag).2.2
      · intro hflag
        simp only at hflag
        refine ⟨?_, ?_⟩
        · rw [hrel.1, (ih'.2 hflag).1]
        · rw [hrel.2.1, (ih'.2 hflag).2]
    | cont c₁ =>
      unfold extStep at hext
      rw [hd] at hext
      simp only at hext
      cases hd2 : decode (extBuf c e) <;> rw [hd2] at hext <;>
        simp only [resRel] at hext
      have hm := decode_measure_cont hd
      have hinv1 : inv c₁ := decode_inv hinv (Or.inl (by rw [hd]; rfl))
      have hrel := drain_resRel (decode_resRel hext)
      have ih' := ih c₁ e (by omega) hinv1
      rw [drain_cont hd, drain_cont hd2]
      constructor
      · intro hflag
        refine ⟨?_, ?_, ?_⟩
        · rw [hrel.1, (ih'.1 hflag).1]
        · rw [hrel.2.1, (ih'.1 hflag).2.1]
        · exact cRel_trans hrel.2.2 (ih'.1 hflag).2.2
      · intro hflag
        refine ⟨?_, ?_⟩
        · rw [hrel.1, (ih'.2 hflag).1]
        · rw [hrel.2.1, (ih'.2 hflag).2]

theorem drain_append (c : Codec) (e : Buf) (hinv : inv c) :
    ((drain c).2.2 = true →
      (drain (extBuf c e)).1 = (drain c).1 ++ (drain (extBuf (drain c).2.1 e)).1 ∧
      (drain (extBuf c e)).2.2 = (drain (extBuf (drain c).2.1 e)).2.2 ∧
      cRel (drain (extBuf c e)).2.1 (drain (extBuf (drain c).2.1 e)).2.1) ∧
    ((drain c).2.2 = false →
      (drain (extBuf c e)).1 = (drain c).1 ∧ (drain (extBuf c e)).2.2 = false) :=
  drain_append_fuel (mu c + 1) c e (by omega) hinv

theorem drain_congr {x y : Codec} (h : decode x = decode y) : drain x = drain y := by
  cases hd : decode x with
  | err c' => rw [drain_err hd, drain_err (h.symm.trans hd)]
  | stop c' => rw [drain_stop hd, drain_stop (h.symm.trans hd)]
  | emit f c' => rw [drain_emit hd, drain_emit (h.symm.trans hd)]
  | cont c' => rw [drain_cont hd, drain_cont (h.symm.trans hd)]

theorem extBuf_assoc (c : Codec) (a b : Buf) :
    extBuf c (a ++ b) = extBuf (extBuf c a) b := by
  simp only [extBuf, List.append_assoc]

theorem extBuf_nil (c : Codec) : extBuf c [] = c := by
  simp only [extBuf, List.append_nil]

/-- Feeding a list of parts one after another to a single decoder: each part is
appended to the retained buffer and the decoder is drained; an error stops the
loop with flag `false`, mirroring the caller of `BatMudCodec::decode`. -/
def feedAll : Codec → List Buf → List BatFrame × Codec × Bool
  | c, [] => ([], c, true)
  | c, p :: ps =>
    if (drain (extBuf c p)).2.2 then
      ((drain (extBuf c p)).1 ++ (feedAll (drain (extBuf c p)).2.1 ps).1,
        (feedAll (drain (extBuf c p)).2.1 ps).2.1,
        (feedAll (drain (extBuf c p)).2.1 ps).2.2)
    else
      ((drain (extBuf c p)).1, (drain (extBuf c p)).2.1, false)

theorem feedAll_join : ∀ (parts : List Buf) (c c' : Codec), inv c → inv c' →
    cRel c c' → decode c' = .stop c' →
    (feedAll c parts).1 = (drain (extBuf c' parts.join)).1 ∧
    (feedAll c parts).2.2 = (drain (extBuf c' parts.join)).2.2 := by
  intro parts
  induction parts with
  | nil =>
    intro c c' _ _ _ hq
    simp only [feedAll, List.join_nil, extBuf_nil, drain_stop hq]
    exact ⟨trivial, trivial⟩
  | cons p ps ih =>
    intro c c' hic hic' hcc hq
    have hrel := drain_resRel (decode_resRel (cRel_ext p hcc))
    have happ := drain_append (extBuf c' p) ps.join (extBuf_inv p hic')
    have hsplit : extBuf c' (p :: ps).join = extBuf (extBuf c' p) ps.join := by
      rw [show (p :: ps).join = p ++ ps.join from rfl, extBuf_assoc]
    by_cases hflag : (drain (extBuf c p)).2.2 = true
    · have hflag' : (drain (extBuf c' p)).2.2 = true := by rw [← hrel.2.1]; exact hflag
      have h1 := happ.1 hflag'
      have hih := ih (drain (extBuf c p)).2.1 (drain (extBuf c' p)).2.1
        (drain_inv (extBuf_inv p hic) hflag)
        (drain_inv (extBuf_inv p hic') hflag')
        hrel.2.2 (drain_end_stop hflag')
      constructor
      · simp only [feedAll, if_pos hflag, hsplit, h1.1, hrel.1, hih.1]
      · simp only [feedAll, if_pos hflag, hsplit, h1.2.1, hih.2]
    · have hflag0 : (drain (extBuf c p)).2.2 = false := by
        cases hfe : (drain (extBuf c p)).2.2
        · rfl
        · exact (hflag hfe).elim
      have hflag' : (drain (extBuf c' p)).2.2 = false := by rw [← hrel.2.1]; exact hflag0
      have h2 := happ.2 hflag'
      constructor
      · simp only [feedAll, if_neg hflag, hsplit, h2.1, hrel.1]
      · simp only [feedAll, if_neg hflag, hsplit, h2.2]

/-- C1: incremental decoding is equivalent to whole-buffer decoding. For every
list of parts, feeding them one after another to a fresh `BatMudCodec` — each
part appended to the retained buffer, frames drained after each append —
yields exactly the frame sequence obtained by draining the concatenation
`parts.join` in one call, and the two runs agree on success. -/
theorem C1_incremental_equivalence (parts : List Buf) :
    (feedAll ⟨.text, 0, [], []⟩ parts).1 =
      (drain ⟨.text, 0, [], parts.join⟩).1 ∧
    (feedAll ⟨.text, 0, [], []⟩ parts).2.2 =
      (drain ⟨.text, 0, [], parts.join⟩).2.2 := by
  have h := feedAll_join parts ⟨.text, 0, [], []⟩ ⟨.text, 0, [], []⟩
    (Nat.le_refl 0) (Nat.le_refl 0) (cRel_refl _) rfl
  have hb : extBuf ⟨.text, 0, [], []⟩ parts.join = ⟨.text, 0, [], parts.join⟩ := rfl
  rw [hb] at h
  exact h

/-- Concatenation of the bytes carried by a frame list, defined only when every
frame is a `text` frame. -/
def joinText : List BatFrame → Option Buf
  | [] => some []
  | .text t :: fs => (joinText fs).map (fun r => t ++ r)
  | .code _ :: _ => none

theorem conserve : ∀ n (k : Nat) (b : Buf), mu ⟨MudState.text, k, [], b⟩ < n →
    (b = [] ∨ k < b.length) →
    (b ≠ [] → b.getD (b.length - 1) 0 = 10) →
    (∀ i, i < b.length → b.getD i 0 ≠ 255) →
    (∀ i, i < b.length → b.getD i 0 = 27 →
      i + 4 ≤ b.length ∧ b.getD (i + 1) 0 ≠ 60 ∧ b.getD (i + 1) 0 ≠ 62) →
    joinText (drain ⟨MudState.text, k, [], b⟩).1 = some b ∧
    (drain ⟨MudState.text, k, [], b⟩).2.2 = true ∧
    (drain ⟨MudState.text, k, [], b⟩).2.1.buf = [] := by
  intro n
  induction n with
  | zero =>
    intro k b hn
    omega
  | succ n ih =>
    intro k b hn hk h10 h255 hesc
    rcases hk with rfl | hk
    · have hd : decode ⟨MudState.text, k, [], ([] : Buf)⟩ =
          .stop ⟨MudState.text, k, [], []⟩ := by
        simp [decode]
      rw [drain_stop hd]
      exact ⟨rfl, rfl, rfl⟩
    · have hbne : b ≠ [] := by
        intro h
        rw [h] at hk
        simp at hk
      have hd : decode ⟨MudState.text, k, [], b⟩ = decodeText k [] b := by
        simp only [decode]
        rw [if_neg hbne]
      cases hfh : firstHit isBreak (b.drop k) with
      | none =>
        exfalso
        have hall := firstHit_none_iff.mp hfh
        have hlast : b.getD (b.length - 1) 0 ∈ b.drop k := by
          have h1 : (b.drop k).getD (b.length - 1 - k) 0 = b.getD (b.length - 1) 0 := by
            rw [getD_drop]
            congr 1
            omega
          have h2 : b.length - 1 - k < (b.drop k).length := by
            simp only [List.length_drop]
            omega
          rw [← h1]
          exact getD_mem h2
        have hfalse := hall _ hlast
        rw [h10 hbne] at hfalse
        simp [isBreak] at hfalse
      | some off =>
        have hofflt : off < (b.drop k).length := firstHit_lt hfh
        have hplen : k + off < b.length := by
          simp only [List.length_drop] at hofflt
          omega
        have hhit : isBreak (b.getD (k + off) 0) = true := by
          have h1 := firstHit_getD hfh
          rwa [getD_drop] at h1
        have hne255 := h255 (k + off) hplen
        by_cases h27 : b.getD (k + off) 0 = 27
        · obtain ⟨hroom, h60, h62⟩ := hesc (k + off) hplen h27
          have hstep : decode ⟨MudState.text, k, [], b⟩ =
              .cont ⟨MudState.esc, k + off + 1, [], b⟩ := by
            rw [hd]
            unfold decodeText
            simp only [hfh]
            rw [if_neg hne255, if_pos h27]
          have hstep2 : decode ⟨MudState.esc, k + off + 1, [], b⟩ =
              .cont ⟨MudState.text, k + off + 1 + 1, [], b⟩ := by
            simp only [decode]
            rw [if_neg hbne]
            unfold decodeEsc
            rw [if_pos (show b.length > k + off + 1 + 2 by omega)]
            rw [if_neg h60, if_neg h62]
          have hm1 := decode_measure_cont hstep
          have hm2 := decode_measure_cont hstep2
          rw [drain_cont hstep, drain_cont hstep2]
          exact ih (k + off + 1 + 1) b (by omega) (Or.inr (by omega)) h10 h255 hesc
        · have h10hit : b.getD (k + off) 0 = 10 := by
            simp only [isBreak, Bool.or_eq_true, beq_iff_eq] at hhit
            rcases hhit with (h | h) | h
            · exact h
            · exact (h27 h).elim
            · exact (hne255 h).elim
          have hstep : decode ⟨MudState.text, k, [], b⟩ =
              .emit (.text (b.take (k + off + 1)))
                ⟨MudState.text, 0, [], b.drop (k + off + 1)⟩ := by
            rw [hd]
            unfold decodeText
            simp only [hfh]
            rw [if_neg hne255, if_neg h27, if_pos trivial]
          have hm := decode_measure_emit hstep
          rw [drain_emit hstep]
          have hfuel : mu ⟨MudState.text, 0, [], b.drop (k + off + 1)⟩ < n := by omega
          have hne : b.drop (k + off + 1) = [] ∨ 0 < (b.drop (k + off + 1)).length := by
            by_cases hr : b.drop (k + off + 1) = []
            · exact Or.inl hr
            · exact Or.inr (List.length_pos.mpr hr)
          have he10 : b.drop (k + off + 1) ≠ [] →
              (b.drop (k + off + 1)).getD ((b.drop (k + off + 1)).length - 1) 0 = 10 := by
            intro hr
            have hlt : k + off + 1 < b.length := by
              by_contra hcon
              exact hr (List.drop_eq_nil_of_le (by omega))
            simp only [List.length_drop]
            rw [getD_drop]
            have harith : k + off + 1 + (b.length - (k + off + 1) - 1) = b.length - 1 := by
              omega
            rw [harith]
            exact h10 hbne
          have he255 : ∀ i, i < (b.drop (k + off + 1)).length →
              (b.drop (k + off + 1)).getD i 0 ≠ 255 := by
            intro i hi
            rw [getD_drop]
            simp only [List.length_drop] at hi
            exact h255 (k + off + 1 + i) (by omega)
          have heesc : ∀ i, i < (b.drop (k + off + 1)).length →
              (b.drop (k + off + 1)).getD i 0 = 27 →
              i + 4 ≤ (b.drop (k + off + 1)).length ∧
              (b.drop (k + off + 1)).getD (i + 1) 0 ≠ 60 ∧
              (b.drop (k + off + 1)).getD (i + 1) 0 ≠ 62 := by
            intro i hi hi27
            rw [getD_drop] at hi27
            simp only [List.length_drop] at hi ⊢
            obtain ⟨hr, h6, h2⟩ := hesc (k + off + 1 + i) (by omega) hi27
            refine ⟨by omega, ?_, ?_⟩
            · rw [getD_drop]
              have harith : k + off + 1 + (i + 1) = k + off + 1 + i + 1 := by omega
              rw [harith]
              exact h6
            · rw [getD_drop]
              have harith : k + off + 1 + (i + 1) = k + off + 1 + i + 1 := by omega
              rw [harith]
              exact h2
          have ihr := ih 0 (b.drop (k + off + 1)) hfuel hne he10 he255 heesc
          refine ⟨?_, ihr.2.1, ihr.2.2⟩
          simp only [joinText]
          rw [ihr.1]
          simp only [Option.map_some']
          rw [List.take_append_drop]

/-- C2 counterexample: the input `"a" ESC "[" "\n"` contains no IAC byte and no
BC markup (the ESC is followed by a plain ASCII bracket), yet a whole-buffer
decode emits no frame at all — the trailing bytes starting at the ESC are held
back because fewer than three bytes follow the ESC, so the output is not
byte-for-byte identical to the input. -/
theorem C2_counterexample :
    (drain ⟨MudState.text, 0, [], [97, 27, 91, 10]⟩).1 = [] ∧
    (drain ⟨MudState.text, 0, [], [97, 27, 91, 10]⟩).2.2 = true := by
  rw [drain_eval]
  exact ⟨rfl, rfl⟩

/-- C2 (amended): byte conservation for markup-free input, strengthened with
the two conditions the code actually needs — the input ends with a newline and
every ESC has at least three bytes following it (and is not followed by
ASCII `<` or `>`). Under these conditions the decoder emits only text frames,
their concatenation is byte-for-byte the input, and decoding succeeds. -/
theorem C2_amended (b : Buf)
    (hterm : b ≠ [] → b.getD (b.length - 1) 0 = 10)
    (h255 : ∀ i, i < b.length → b.getD i 0 ≠ 255)
    (hesc : ∀ i, i < b.length → b.getD i 0 = 27 →
      i + 4 ≤ b.length ∧ b.getD (i + 1) 0 ≠ 60 ∧ b.getD (i + 1) 0 ≠ 62) :
    joinText (drain ⟨MudState.text, 0, [], b⟩).1 = some b ∧
    (drain ⟨MudState.text, 0, [], b⟩).2.2 = true := by
  have hk : b = [] ∨ 0 < b.length := by
    cases b with
    | nil => exact Or.inl rfl
    | cons x xs => exact Or.inr (by simp)
  have h := conserve (mu ⟨MudState.text, 0, [], b⟩ + 1) 0 b (by omega) hk hterm h255 hesc
  exact ⟨h.1, h.2.1⟩

/-- Witness for C2 (amended) at the concrete newline-terminated input
`"hi\n"`. -/
theorem C2_amended_witness :
    (([104, 105, 10] : Buf) ≠ [] → ([104, 105, 10] : Buf).getD 2 0 = 10) ∧
    (joinText (drain ⟨MudState.text, 0, [], [104, 105, 10]⟩).1 = some [104, 105, 10] ∧
      (drain ⟨MudState.text, 0, [], [104, 105, 10]⟩).2.2 = true) :=
  ⟨by decide, C2_amended [104, 105, 10] (by decide) (by decide) (by decide)⟩

theorem foldl_append_eq_join (f : Buf → Buf) :
    ∀ (ls : List Buf) (acc : Buf),
      ls.foldl (fun a l => a ++ f l) acc = acc ++ (ls.map f).join := by
  intro ls
  induction ls with
  | nil =>
    intro acc
    simp
  | cons x xs ih =>
    intro acc
    rw [List.foldl_cons, ih]
    simp [List.append_assoc]

/-- C4: every code-10 tag whose argument is `"spec_prompt"` renders to bytes
ending with the telnet Go-Ahead sequence `0xFF 0xF9`, for any list of
children. -/
theorem C4_spec_prompt_go_ahead (children : List (Buf ⊕ CC)) :
    [255, 249] <:+ ccToBytes (.mk (49, 48) specPromptBytes children) := by
  show [255, 249] <:+ renderWith (49, 48) specPromptBytes (childBytes children)
  unfold renderWith
  rw [if_neg (by decide), if_neg (by decide), if_neg (by decide), if_neg (by decide),
    if_pos (by decide : ((49, 48) : Byte × Byte) = (49, 48) ∧
      specPromptBytes = specPromptBytes)]
  exact ⟨piMark ++ [62] ++ childBytes children, by simp⟩

/-- C5: the style tags 22–25 do NOT render as the SGR sequences
`ESC[1m`/`ESC[3m`/`ESC[4m`/`ESC[5m`.  The `embed_style!` macro interpolates
its argument into a plain (non-`format!`) string literal, so every style tag
emits the nine literal bytes `ESC [ $ s t y l e m` instead of the intended
two-or-three byte SGR prefix; the reset suffix `ESC[0m` is correct.  The last
conjunct exhibits the divergence from the specified output for code 22. -/
theorem C5_style_literal_dollar_style :
    ccToBytes (.mk (50, 50) [] [.inl [120]]) =
      [27, 91, 36, 115, 116, 121, 108, 101, 109] ++ [120] ++ [27, 91, 48, 109] ∧
    ccToBytes (.mk (50, 51) [] [.inl [120]]) =
      [27, 91, 36, 115, 116, 121, 108, 101, 109] ++ [120] ++ [27, 91, 48, 109] ∧
    ccToBytes (.mk (50, 52) [] [.inl [120]]) =
      [27, 91, 36, 115, 116, 121, 108, 101, 109] ++ [120] ++ [27, 91, 48, 109] ∧
    ccToBytes (.mk (50, 53) [] [.inl [120]]) =
      [27, 91, 36, 115, 116, 121, 108, 101, 109] ++ [120] ++ [27, 91, 48, 109] ∧
    ccToBytes (.mk (50, 50) [] [.inl [120]]) ≠
      [27, 91, 49, 109] ++ [120] ++ [27, 91, 48, 109] :=
  ⟨rfl, rfl, rfl, rfl, by decide⟩

/-- C6 counterexample: a code-10 channel tag whose body has no trailing
newline loses the final segment entirely (first conjunct: the whole body is
dropped and nothing is emitted), and with a newline-terminated first line the
trailing unterminated segment `"yo"` likewise vanishes from the output
(second conjunct) — it does not pass through without the prefix. -/
theorem C6_counterexample :
    ccToBytes (.mk (49, 48) [99] [.inl [104, 105]]) = [] ∧
    ccToBytes (.mk (49, 48) [99] [.inl [104, 105, 10, 121, 111]]) =
      piMark ++ [99] ++ [58, 32] ++ [104, 105] ++ [10] :=
  ⟨rfl, rfl⟩

/-- C6 (amended): for a code-10 tag whose argument is none of the `spec_*`
message types, the output is exactly one prefixed line
`PREFIX attr ": " line "\n"` per newline-terminated line of the body; the
final segment after the last newline (in particular a body with no newline at
all) is dropped, not passed through. -/
theorem C6_channel_line_framing (attr : Buf) (children : List (Buf ⊕ CC))
    (h1 : attr ≠ specPromptBytes) (h2 : attr ≠ specSkillBytes)
    (h3 : attr ≠ specSpellBytes) :
    ccToBytes (.mk (49, 48) attr children) =
      ((splitOn 10 (childBytes children)).dropLast.map
        (fun l => piMark ++ attr ++ [58, 32] ++ l ++ [10])).join := by
  show renderWith (49, 48) attr (childBytes children) = _
  unfold renderWith
  rw [if_neg (by decide), if_neg (by decide), if_neg (by decide), if_neg (by decide),
    if_neg (fun hc => h1 hc.2), if_neg (fun hc => hc.2.elim h2 h3), if_pos rfl]
  rw [chanLines, foldl_append_eq_join (chanLine attr)]
  rfl

/-- Witness for C6 (amended) at a concrete channel tag with argument `"c"`
and newline-terminated body `"hi\n"`. -/
theorem C6_channel_line_framing_witness :
    (([99] : Buf) ≠ specPromptBytes) ∧
    ccToBytes (.mk (49, 48) [99] [.inl [104, 105, 10]]) =
      ((splitOn 10 (childBytes [.inl [104, 105, 10]])).dropLast.map
        (fun l => piMark ++ [99] ++ [58, 32] ++ l ++ [10])).join :=
  ⟨by decide, C6_channel_line_framing [99] [.inl [104, 105, 10]]
    (by decide) (by decide) (by decide)⟩

/-! ### The mapper parser (`Mapper::try_from` of `src/codec/control_code/mapper.rs`) -/

/-- Rust `windows(2).position(|b| b == b";;")`: index of the first adjacent
`';;'` pair. -/
def ssHit : Buf → Option Nat
  | b :: c :: rest => if b = 59 ∧ c = 59 then some 0 else (ssHit (c :: rest)).map (· + 1)
  | _ => none

theorem ssHit_le : ∀ (l : Buf) (i : Nat), ssHit l = some i → i + 2 ≤ l.length := by
  intro l
  induction l with
  | nil =>
    intro i h
    simp [ssHit] at h
  | cons b rest ih =>
    intro i h
    cases rest with
    | nil => simp [ssHit] at h
    | cons c r2 =>
      rw [ssHit] at h
      by_cases hbc : b = 59 ∧ c = 59
      · rw [if_pos hbc] at h
        cases h
        simp
      · rw [if_neg hbc] at h
        rcases Option.map_eq_some'.mp h with ⟨j, hj, hji⟩
        have hj2 := ih j hj
        simp only [List.length_cons] at hj2 ⊢
        omega

/-- Number of (leftmost, non-overlapping) `';;'` separators, the quantity that
drives the `field_index` loop of `Mapper::try_from`. -/
def ssCountGo : Nat → Buf → Nat
  | 0, _ => 0
  | fuel+1, v =>
    match ssHit v with
    | none => 0
    | some i => 1 + ssCountGo fuel (v.drop (i + 2))

def ssCount (v : Buf) : Nat := ssCountGo v.length v

theorem ssCountGo_congr : ∀ n f1 f2 (v : Buf), v.length ≤ f1 → v.length ≤ f2 →
    v.length ≤ n → ssCountGo f1 v = ssCountGo f2 v := by
  intro n
  induction n with
  | zero =>
    intro f1 f2 v h1 h2 hn
    have hv : v = [] := List.eq_nil_of_length_eq_zero (by omega)
    subst hv
    cases f1 <;> cases f2 <;> rfl
  | succ m ih =>
    intro f1 f2 v h1 h2 hn
    by_cases hv : v = []
    · subst hv
      cases f1 <;> cases f2 <;> rfl
    · have hlen : 0 < v.length := List.length_pos.mpr hv
      cases f1 with
      | zero => omega
      | succ a =>
        cases f2 with
        | zero => omega
        | succ b =>
          simp only [ssCountGo]
          cases hht : ssHit v with
          | none => rfl
          | some i =>
            have hle := ssHit_le v i hht
            show 1 + ssCountGo a (v.drop (i + 2)) = 1 + ssCountGo b (v.drop (i + 2))
            have hx := ih a b (v.drop (i + 2)) (by rw [List.length_drop]; omega)
              (by rw [List.length_drop]; omega) (by rw [List.length_drop]; omega)
            rw [hx]

theorem ssCount_unfold (v : Buf) :
    ssCount v = match ssHit v with
      | none => 0
      | some i => 1 + ssCount (v.drop (i + 2)) := by
  unfold ssCount
  cases hl : v.length with
  | zero =>
    have hv : v = [] := List.eq_nil_of_length_eq_zero hl
    subst hv
    rfl
  | succ m =>
    simp only [ssCountGo]
    cases hht : ssHit v with
    | none => rfl
    | some i =>
      have hle := ssHit_le v i hht
      show 1 + ssCountGo m (v.drop (i + 2)) = 1 + ssCount (v.drop (i + 2))
      congr 1
      exact ssCountGo_congr ((v.drop (i + 2)).length + 1) m (v.drop (i + 2)).length
        (v.drop (i + 2)) (by rw [List.length_drop]; omega) (Nat.le_refl _)
        (by rw [List.length_drop]; omega)

/-- One multi-byte UTF-8 sequence step: given a lead byte `b > 127` and the
following bytes, return the remainder after the required continuation bytes,
or `none` if the sequence is ill-formed (the `String::from_utf8` table). -/
def utf8Step (b : Byte) (rest : Buf) : Option Buf :=
  if 194 ≤ b ∧ b ≤ 223 then
    match rest with
    | c :: r => if 128 ≤ c ∧ c ≤ 191 then some r else none
    | [] => none
  else if b = 224 then
    match rest with
    | c :: d :: r =>
      if (160 ≤ c ∧ c ≤ 191) ∧ (128 ≤ d ∧ d ≤ 191) then some r else none
    | _ => none
  else if (225 ≤ b ∧ b ≤ 236) ∨ b = 238 ∨ b = 239 then
    match rest with
    | c :: d :: r =>
      if (128 ≤ c ∧ c ≤ 191) ∧ (128 ≤ d ∧ d ≤ 191) then some r else none
    | _ => none
  else if b = 237 then
    match rest with
    | c :: d :: r =>
      if (128 ≤ c ∧ c ≤ 159) ∧ (128 ≤ d ∧ d ≤ 191) then some r else none
    | _ => none
  else if b = 240 then
    match rest with
    | c :: d :: e :: r =>
      if (144 ≤ c ∧ c ≤ 191) ∧ (128 ≤ d ∧ d ≤ 191) ∧ (128 ≤ e ∧ e ≤ 191) then
        some r
      else none
    | _ => none
  else if 241 ≤ b ∧ b ≤ 243 then
    match rest with
    | c :: d :: e :: r =>
      if (128 ≤ c ∧ c ≤ 191) ∧ (128 ≤ d ∧ d ≤ 191) ∧ (128 ≤ e ∧ e ≤ 191) then
        some r
      else none
    | _ => none
  else if b = 244 then
    match rest with
    | c :: d :: e :: r =>
      if (128 ≤ c ∧ c ≤ 143) ∧ (128 ≤ d ∧ d ≤ 191) ∧ (128 ≤ e ∧ e ≤ 191) then
        some r
      else none
    | _ => none
  else none

/-- `String::from_utf8` validity; each iteration consumes at least the head
byte, so fuel `l.length` suffices. -/
def utf8Go : Nat → Buf → Bool
  | _, [] => true
  | 0, _ :: _ => false
  | fuel+1, b :: rest =>
    if b ≤ 127 then utf8Go fuel rest
    else
      match utf8Step b rest with
      | some r => utf8Go fuel r
      | none => false

def utf8Valid (l : Buf) : Bool := utf8Go l.length l

theorem utf8Go_of_ascii : ∀ fuel (l : Buf), (∀ b ∈ l, b < 128) →
    l.length ≤ fuel → utf8Go fuel l = true := by
  intro fuel
  induction fuel with
  | zero =>
    intro l h hlen
    have hl : l = [] := List.eq_nil_of_length_eq_zero (by omega)
    subst hl
    rfl
  | succ m ih =>
    intro l h hlen
    cases l with
    | nil => rfl
    | cons b rest =>
      have hb : b < 128 := h b (by simp)
      simp only [utf8Go]
      rw [if_pos (Nat.lt_succ_iff.mp hb)]
      have hx : rest.length + 1 ≤ m + 1 := by simpa using hlen
      exact ih rest (fun x hx => h x (by simp [hx])) (by omega)

theorem utf8Valid_of_ascii : ∀ l : Buf, (∀ b ∈ l, b < 128) → utf8Valid l = true :=
  fun l h => utf8Go_of_ascii l.length l h (Nat.le_refl _)

inductive Mapper where
  | realm
  | area (roomId roomName areaName roomDesc : Buf) (indoor : Bool)
      (exits fromWhere : Buf)

/-- The `loop` of `Mapper::try_from`: `field_index` increments once per
iteration, so fuel 8 (from field 0) covers every path. -/
def mapperGo : Nat → Buf → Nat → Nat → Buf → Buf → Buf → Buf → Bool → Buf →
    Except Unit Mapper
  | 0, _, _, _, _, _, _, _, _, _ => .error ()
  | fuel+1, v, fi, n, areaName, roomId, fromW, roomName, indoor, roomDesc =>
    match ssHit (v.drop n), fi with
    | some idx, 0 =>
      mapperGo fuel v 1 (n + idx + 2) areaName roomId fromW roomName indoor roomDesc
    | some idx, 1 =>
      if utf8Valid (sl v n (n + idx)) then
        mapperGo fuel v 2 (n + idx + 2) (sl v n (n + idx)) roomId fromW roomName
          indoor roomDesc
      else .error ()
    | none, 1 => .ok .realm
    | some idx, 2 =>
      if utf8Valid (sl v n (n + idx)) then
        mapperGo fuel v 3 (n + idx + 2) areaName (sl v n (n + idx)) fromW roomName
          indoor roomDesc
      else .error ()
    | some idx, 3 =>
      if utf8Valid (sl v n (n + idx)) then
        mapperGo fuel v 4 (n + idx + 2) areaName roomId (sl v n (n + idx)) roomName
          indoor roomDesc
      else .error ()
    | some idx, 4 =>
      mapperGo fuel v 5 (n + idx + 2) areaName roomId fromW roomName
        (v.getD n 0 == 49) roomDesc
    | some idx, 5 =>
      if utf8Valid (sl v n (n + idx)) then
        mapperGo fuel v 6 (n + idx + 2) areaName roomId fromW (sl v n (n + idx))
          indoor roomDesc
      else .error ()
    | some idx, 6 =>
      if utf8Valid (sl v n (n + idx)) then
        mapperGo fuel v 7 (n + idx + 2) areaName roomId fromW roomName indoor
          (sl v n (n + idx))
      else .error ()
    | some idx, 7 =>
      if utf8Valid (sl v n (n + idx)) then
        .ok (.area roomId roomName areaName roomDesc indoor (sl v n (n + idx)) fromW)
      else .error ()
    | _, _ => .error ()

def mapperTryFrom (v : Buf) : Except Unit Mapper :=
  mapperGo 8 v 0 0 [] [] [] [] false []

theorem sl_ascii {v : Buf} (hascii : ∀ x ∈ v, x < 128) (a b : Nat) :
    utf8Valid (sl v a b) = true :=
  utf8Valid_of_ascii _
    (fun x hx => hascii x (List.mem_of_mem_drop (List.mem_of_mem_take hx)))

set_option maxHeartbeats 1600000 in
theorem mapperGo_spec : ∀ fuel (v : Buf) fi n a b c d e f,
    fi + fuel = 8 → fi ≤ 7 → (∀ x ∈ v, x < 128) →
    (fi + ssCount (v.drop n) = 1 →
      mapperGo fuel v fi n a b c d e f = .ok .realm) ∧
    (8 ≤ fi + ssCount (v.drop n) →
      ∃ r1 r2 r3 r4 r5 r6 r7,
        mapperGo fuel v fi n a b c d e f = .ok (.area r1 r2 r3 r4 r5 r6 r7)) ∧
    (fi + ssCount (v.drop n) ≠ 1 → fi + ssCount (v.drop n) < 8 →
      mapperGo fuel v fi n a b c d e f = .error ()) := by
  intro fuel
  induction fuel with
  | zero =>
    intro v fi n a b c d e f hfu hfi
    omega
  | succ m ih =>
    intro v fi n a b c d e f hfu hfi hascii
    cases hht : ssHit (v.drop n) with
    | none =>
      have hk0 : ssCount (v.drop n) = 0 := by rw [ssCount_unfold, hht]
      interval_cases fi <;> simp only [mapperGo, hht] <;>
        refine ⟨fun h1 => ?_, fun h2 => ?_, fun h3 h4 => ?_⟩ <;>
        first
        | trivial
        | rfl
        | (rw [hk0] at h1
           exact absurd h1 (by decide))
        | (rw [hk0] at h2
           exact absurd h2 (by decide))
        | (rw [hk0] at h3
           exact absurd rfl h3)
    | some idx =>
      have hle := ssHit_le _ _ hht
      have hkeq : ssCount (v.drop n) = 1 + ssCount (v.drop (n + idx + 2)) := by
        rw [ssCount_unfold]
        simp only [hht]
        rw [List.drop_drop]
        rfl
      interval_cases fi
      · simp only [mapperGo, hht]
        have ihr := ih v 1 (n + idx + 2) a b c d e f (by omega) (by omega) hascii
        exact ⟨fun h1 => ihr.1 (by omega), fun h2 => ihr.2.1 (by omega),
          fun h3 h4 => ihr.2.2 (by omega) (by omega)⟩
      · simp only [mapperGo, hht]
        rw [if_pos (sl_ascii hascii n (n + idx))]
        have ihr := ih v 2 (n + idx + 2) (sl v n (n + idx)) b c d e f
          (by omega) (by omega) hascii
        exact ⟨fun h1 => ihr.1 (by omega), fun h2 => ihr.2.1 (by omega),
          fun h3 h4 => ihr.2.2 (by omega) (by omega)⟩
      · simp only [mapperGo, hht]
        rw [if_pos (sl_ascii hascii n (n + idx))]
        have ihr := ih v 3 (n + idx + 2) a (sl v n (n + idx)) c d e f
          (by omega) (by omega) hascii
        exact ⟨fun h1 => ihr.1 (by omega), fun h2 => ihr.2.1 (by omega),
          fun h3 h4 => ihr.2.2 (by omega) (by omega)⟩
      · simp only [mapperGo, hht]
        rw [if_pos (sl_ascii hascii n (n + idx))]
        have ihr := ih v 4 (n + idx + 2) a b (sl v n (n + idx)) d e f
          (by omega) (by omega) hascii
        exact ⟨fun h1 => ihr.1 (by omega), fun h2 => ihr.2.1 (by omega),
          fun h3 h4 => ihr.2.2 (by omega) (by omega)⟩
      · simp only [mapperGo, hht]
        have ihr := ih v 5 (n + idx + 2) a b c d (v.getD n 0 == 49) f
          (by omega) (by omega) hascii
        exact ⟨fun h1 => ihr.1 (by omega), fun h2 => ihr.2.1 (by omega),
          fun h3 h4 => ihr.2.2 (by omega) (by omega)⟩
      · simp only [mapperGo, hht]
        rw [if_pos (sl_ascii hascii n (n + idx))]
        have ihr := ih v 6 (n + idx + 2) a b c (sl v n (n + idx)) e f
          (by omega) (by omega) hascii
        exact ⟨fun h1 => ihr.1 (by omega), fun h2 => ihr.2.1 (by omega),
          fun h3 h4 => ihr.2.2 (by omega) (by omega)⟩
      · simp only [mapperGo, hht]
        rw [if_pos (sl_ascii hascii n (n + idx))]
        have ihr := ih v 7 (n + idx + 2) a b c d e (sl v n (n + idx))
          (by omega) (by omega) hascii
        exact ⟨fun h1 => ihr.1 (by omega), fun h2 => ihr.2.1 (by omega),
          fun h3 h4 => ihr.2.2 (by omega) (by omega)⟩
      · simp only [mapperGo, hht]
        rw [if_pos (sl_ascii hascii n (n + idx))]
        exact ⟨fun h1 => (by omega : False).elim,
          fun h2 => ⟨b, d, a, f, e, sl v n (n + idx), c, rfl⟩,
          fun h3 h4 => (by omega : False).elim⟩

/-- C7 counterexample: a payload with nine `';;'`-terminated fields (eight
further tokens after `BAT_MAPPER`) still parses to `Ok(Area ..)` — the eighth
and later tokens are silently ignored — contradicting the claim that every
token count other than 1 and 7 yields an `InvalidMapper` error. -/
theorem C7_counterexample :
    mapperTryFrom
      [66, 65, 84, 95, 77, 65, 80, 80, 69, 82, 59, 59, 97, 59, 59, 98, 59, 59,
        99, 59, 59, 100, 59, 59, 101, 59, 59, 102, 59, 59, 103, 59, 59, 104, 59, 59] =
      .ok (.area [98] [101] [97] [102] false [103] [99]) := by
  rfl

/-- C7 (amended): for any payload of ASCII bytes, writing `k` for the number
of leftmost non-overlapping `';;'` separators: `k = 1` parses to
`Ok(RealmMap)`, `k ≥ 8` parses to `Ok(Area ..)` (seven fields consumed and any
extra tokens ignored), and every other count is an `InvalidMapper` error.
The parser never checks the literal `BAT_MAPPER` text of field 0. -/
theorem C7_mapper_field_count (v : Buf) (hascii : ∀ x ∈ v, x < 128) :
    (ssCount v = 1 → mapperTryFrom v = .ok .realm) ∧
    (8 ≤ ssCount v → ∃ r1 r2 r3 r4 r5 r6 r7,
      mapperTryFrom v = .ok (.area r1 r2 r3 r4 r5 r6 r7)) ∧
    (ssCount v ≠ 1 → ssCount v < 8 → mapperTryFrom v = .error ()) := by
  have h := mapperGo_spec 8 v 0 0 [] [] [] [] false [] (by omega) (by omega) hascii
  rw [List.drop_zero] at h
  simp only [Nat.zero_add] at h
  exact h

/-- Witness for C7 (amended) at the concrete realm payload
`"BAT_MAPPER;;R"`. -/
theorem C7_mapper_field_count_witness :
    (∀ x ∈ ([66, 65, 84, 95, 77, 65, 80, 80, 69, 82, 59, 59, 82] : Buf), x < 128) ∧
    ((ssCount [66, 65, 84, 95, 77, 65, 80, 80, 69, 82, 59, 59, 82] = 1 →
      mapperTryFrom [66, 65, 84, 95, 77, 65, 80, 80, 69, 82, 59, 59, 82] = .ok .realm) ∧
    (8 ≤ ssCount [66, 65, 84, 95, 77, 65, 80, 80, 69, 82, 59, 59, 82] →
      ∃ r1 r2 r3 r4 r5 r6 r7,
        mapperTryFrom [66, 65, 84, 95, 77, 65, 80, 80, 69, 82, 59, 59, 82] =
          .ok (.area r1 r2 r3 r4 r5 r6 r7)) ∧
    (ssCount [66, 65, 84, 95, 77, 65, 80, 80, 69, 82, 59, 59, 82] ≠ 1 →
      ssCount [66, 65, 84, 95, 77, 65, 80, 80, 69, 82, 59, 59, 82] < 8 →
      mapperTryFrom [66, 65, 84, 95, 77, 65, 80, 80, 69, 82, 59, 59, 82] =
        .error ())) :=
  ⟨by decide, C7_mapper_field_count
    [66, 65, 84, 95, 77, 65, 80, 80, 69, 82, 59, 59, 82] (by decide)⟩

/-! ### The historical tag renderer (`From<BatTag> for BytesMut` of `src/bat_tag.rs`) -/

/-- The bat-emoji marker `BAT` (UTF-8 of U+1F987). -/
def batMark : Buf := [240, 159, 166, 135]

def specBattleBytes : Buf := [115, 112, 101, 99, 95, 98, 97, 116, 116, 108, 101]

/-- `colorize_content` of `src/color/color256.rs`. -/
def colorizeContent (content colorAttr : Buf) (fgbg : Buf) : Buf :=
  let color :=
    if colorAttr.length > 6 then 0
    else
      rgbToXterm
        (hexNib (colorAttr.getD 0 0) * 16 + hexNib (colorAttr.getD 1 0))
        (hexNib (colorAttr.getD 2 0) * 16 + hexNib (colorAttr.getD 3 0))
        (hexNib (colorAttr.getD 4 0) * 16 + hexNib (colorAttr.getD 5 0))
  [27, 91] ++ fgbg ++ [59, 53, 59] ++ decDigits color ++ [109] ++ content ++
    [27, 91, 48, 109]

/-- A `BatTag` of `src/bat_tag.rs` / `src/codec/server_codec.rs`: code pair,
optional argument and accumulated content. -/
structure BatTag where
  code : Byte × Byte
  argument : Option Buf
  content : Buf

/-- The `while let Some(offset) = ... position(\x7cx\x7c *x == b'\\n')` line loop:
each newline-terminated line is emitted after the per-line prefix.  Each
iteration consumes at least one byte, so fuel `content.length + 1` suffices. -/
def motLoop : Nat → Buf → Buf → Buf → Buf
  | 0, _, _, acc => acc
  | fuel+1, content, pre, acc =>
    match firstHit (fun x => x == 10) content with
    | some off => motLoop fuel (content.drop (off + 1)) pre (acc ++ pre ++ content.take (off + 1))
    | none => acc

/-- `if !tag.content.ends_with(&[b'\\n']) \x7b tag.content.put_u8(b'\\n') \x7d`. -/
def ensureNL (b : Buf) : Buf := if b.getLast? = some 10 then b else b ++ [10]

/-- `From<BatTag> for BytesMut`.  The result is `none` exactly where the Rust
code panics: the `TEXT_COLOR_FG`/`TEXT_COLOR_BG` arm calls
`tag.argument.unwrap()`. -/
def batTagToBytes (tag : BatTag) : Option Buf :=
  if tag.code = (49, 48) then
    let strip : Bool :=
      match tag.argument with
      | some a => a == specBattleBytes || a == specSpellBytes || a == specSkillBytes
      | none => false
    let argBytes := (if strip then none else tag.argument).getD []
    let pre := if strip then ([] : Buf) else batMark ++ [49, 48] ++ argBytes ++ [32]
    let content := ensureNL tag.content
    some (motLoop (content.length + 1) content pre [])
  else if tag.code = (49, 49) then
    some (batMark ++ [49, 49])
  else if tag.code = (50, 48) ∨ tag.code = (50, 49) then
    match tag.argument with
    | none => none
    | some colorAttr =>
      some (colorizeContent tag.content colorAttr
        (if tag.code.2 = 48 then [51, 56] else [52, 56]))
  else if tag.code = (50, 50) ∨ tag.code = (50, 51) ∨ tag.code = (50, 52) ∨
      tag.code = (50, 53) ∨ tag.code = (50, 57) then
    let c : Byte :=
      if tag.code.2 = 50 then 1
      else if tag.code.2 = 51 then 3
      else if tag.code.2 = 52 then 4
      else if tag.code.2 = 53 then 5
      else 0
    some ([27, 91, c, 109] ++ tag.content)
  else if tag.code = (51, 48) ∨ tag.code = (51, 49) then
    some tag.content
  else if tag.code = (57, 57) then
    let content := ensureNL tag.content
    some (motLoop (content.length + 1) content (batMark ++ [57, 57, 32]) [] ++
      batMark ++ [57, 57] ++ batMark ++ [10])
  else
    some (batMark ++ [tag.code.1, tag.code.2, 32] ++ tag.content ++ [10, 255, 249])

/-- C9: rendering a completed tag to bytes is NOT total.  For the color tags
(codes 20 and 21) with an absent argument the conversion evaluates
`tag.argument.unwrap()` and panics (modelled as `none`); such tags are
expressible (`ESC<20` immediately followed by `ESC>20` yields
`argument = None`).  With an argument present the same arm succeeds. -/
theorem C9_color_tag_rendering_panics :
    batTagToBytes ⟨(50, 48), none, [120]⟩ = none ∧
    batTagToBytes ⟨(50, 49), none, []⟩ = none ∧
    batTagToBytes ⟨(50, 48), some [70, 70, 48, 48, 48, 48], [120]⟩ ≠ none := by
  refine ⟨rfl, rfl, by decide⟩

/-! ### The server-to-client forwarder (`server_to_client` of `src/main.rs`) -/

inductive FwdRes where
  | wrote (b : Buf)
  | errorOut

/-- One iteration of the `while let Some(frame)` loop of `server_to_client`:
a `Text` frame is written verbatim; a `Code` frame is rendered and written,
except that for a mapper tag (code 99) `Mapper::try_from(..)?` runs first and
an `Err` propagates out of the function (tearing the connection down). -/
def handleFrame : BatFrame → FwdRes
  | .text l => .wrote l
  | .code cc =>
    if cc.code = (57, 57) then
      match mapperTryFrom (childBytes cc.children) with
      | .ok _ => .wrote (ccToBytes cc)
      | .error _ => .errorOut
    else .wrote (ccToBytes cc)

theorem joinText_text : ∀ (fs : List BatFrame) (r : Buf), joinText fs = some r →
    ∀ f ∈ fs, ∃ l, f = .text l := by
  intro fs
  induction fs with
  | nil =>
    intro r h f hf
    simp at hf
  | cons g gs ih =>
    intro r h f hf
    cases g with
    | text t =>
      rcases List.mem_cons.mp hf with hfe | hf2
      · exact ⟨t, hfe⟩
      · simp only [joinText] at h
        rcases Option.map_eq_some'.mp h with ⟨r2, hr2, _⟩
        exact ih r2 hr2 f hf2
    | code c =>
      simp [joinText] at h

set_option maxHeartbeats 2000000 in
/-- C8 counterexample: the wire bytes `ESC<99 "hi" ESC>99` decode without
error into a single completed code-99 tag, but the forwarder then runs
`Mapper::try_from` on its body, gets an `InvalidMapper` error and propagates
it out of `server_to_client` — the proxied connection is torn down by a
codec-level protocol violation, not a socket error. -/
theorem C8_counterexample :
    (drain ⟨MudState.text, 0, [], [27, 60, 57, 57, 104, 105, 27, 62, 57, 57]⟩).1 =
      [.code (.mk (57, 57) [] [.inl [104, 105]])] ∧
    handleFrame (.code (.mk (57, 57) [] [.inl [104, 105]])) = .errorOut := by
  constructor
  · rw [drain_eval]
    rfl
  · rfl

/-- C8 (amended): an unmatched closing tag IS recovered locally — a spurious
`ESC>12` before otherwise clean, newline-terminated text is discarded, the
decoder returns to Text state, the rest of the stream decodes to exactly the
clean text, decoding succeeds, and every resulting frame is forwarded (none
makes the forwarder error out).  A mapper payload with a wrong field count,
by contrast, does tear the connection down (see the counterexample). -/
theorem C8_spurious_close_recovered (t : Buf)
    (hterm : t ≠ [] → t.getD (t.length - 1) 0 = 10)
    (hesc : ∀ b ∈ t, b ≠ 27)
    (hiac : ∀ b ∈ t, b ≠ 255) :
    joinText (drain ⟨MudState.text, 0, [], [27, 62, 49, 50] ++ t⟩).1 = some t ∧
    (drain ⟨MudState.text, 0, [], [27, 62, 49, 50] ++ t⟩).2.2 = true ∧
    ∀ f ∈ (drain ⟨MudState.text, 0, [], [27, 62, 49, 50] ++ t⟩).1,
      handleFrame f ≠ .errorOut := by
  have h4 : drain ⟨MudState.text, 0, [], [27, 62, 49, 50]⟩ =
      ([], ⟨MudState.text, 0, [], []⟩, true) := by
    rw [drain_eval]
    rfl
  have happ := (drain_append ⟨MudState.text, 0, [], [27, 62, 49, 50]⟩ t
    (Nat.zero_le _)).1
  rw [h4] at happ
  have happ2 := happ rfl
  have hcons := conserve (mu ⟨MudState.text, 0, [], t⟩ + 1) 0 t (by omega)
    (by
      cases t with
      | nil => exact Or.inl rfl
      | cons x xs => exact Or.inr (by simp))
    hterm
    (fun i hi => hiac (t.getD i 0) (getD_mem hi))
    (fun i hi h27 => absurd h27 (hesc (t.getD i 0) (getD_mem hi)))
  have hext : extBuf ⟨MudState.text, 0, [], ([] : Buf)⟩ t = ⟨MudState.text, 0, [], t⟩ := rfl
  rw [hext] at happ2
  have hbig : extBuf ⟨MudState.text, 0, [], [27, 62, 49, 50]⟩ t =
      ⟨MudState.text, 0, [], [27, 62, 49, 50] ++ t⟩ := rfl
  rw [hbig] at happ2
  simp only [List.nil_append] at happ2
  refine ⟨?_, ?_, ?_⟩
  · rw [happ2.1]
    exact hcons.1
  · rw [happ2.2.1]
    exact hcons.2.1
  · intro f hf
    rw [happ2.1] at hf
    obtain ⟨l, hl⟩ := joinText_text _ _ hcons.1 f hf
    subst hl
    intro hcontra
    cases hcontra

/-- Witness for C8 (amended) at the concrete stream `ESC>12 "hi\n"`. -/
theorem C8_spurious_close_recovered_witness :
    (∀ b ∈ ([104, 105, 10] : Buf), b ≠ 27) ∧
    (joinText (drain ⟨MudState.text, 0, [], [27, 62, 49, 50] ++ [104, 105, 10]⟩).1 =
        some [104, 105, 10] ∧
      (drain ⟨MudState.text, 0, [], [27, 62, 49, 50] ++ [104, 105, 10]⟩).2.2 = true ∧
      ∀ f ∈ (drain ⟨MudState.text, 0, [], [27, 62, 49, 50] ++ [104, 105, 10]⟩).1,
        handleFrame f ≠ .errorOut) :=
  ⟨by decide, C8_spurious_close_recovered [104, 105, 10] (by decide) (by decide)
    (by decide)⟩

/-! ### The historical server codec (`ServerCodec` of `src/codec/server_codec.rs`) -/

inductive SState where
  | text
  | iac
  | iacSub
  | esc
  | tag

/-- `ServerCodec`: scan cursor, decoder state and the open-tag stack.  The
head of `tags` is the top of the stack (the `last()` element of the Rust
`Vec`). -/
structure SCodec where
  nextIndex : Nat
  sstate : SState
  tags : List BatTag

inductive SFrame where
  | bytes (b : Buf)
  | tag (t : BatTag)

/-- Result of one `ServerCodec::decode` call: `err` is `Err(..)`, `frame`
is `Ok(Some(..))` with the updated codec and buffer, `more` is `Ok(None)`,
`crash` is a Rust panic (an `unwrap()` on an empty tag stack or a `None`
argument), `hang` is non-termination (the `IACSub` state without an
`IAC_SE` in the buffer loops forever). -/
inductive SRes where
  | err
  | frame (f : SFrame) (c : SCodec) (buf : Buf)
  | more (c : SCodec) (buf : Buf)
  | crash
  | hang

/-- `without_carriage_return`. -/
def withoutCR (b : Buf) : Buf :=
  if b.getLast? = some 13 then b.take (b.length - 1) else b

/-- The decode loop of `ServerCodec::decode`.  Every iteration either returns
or consumes input / switches state, except `IACSub` without `IAC_SE`, which
loops forever; fuel `2 * buf.length + 8` covers all terminating paths. -/
def sDecodeGo : Nat → SCodec → Buf → SRes
  | 0, _, _ => .hang
  | fuel+1, c, buf =>
    if buf.length = 1 ∧ buf.getD 0 0 = 10 then .err
    else
      match c.sstate with
      | .text =>
        match firstHit isBreak (buf.drop c.nextIndex) with
        | some off =>
          if off + c.nextIndex = 0 ∧ buf.getD (off + c.nextIndex) 0 = 27 then
            if buf.drop 1 = [] then .more ⟨c.nextIndex, .esc, c.tags⟩ (buf.drop 1)
            else sDecodeGo fuel ⟨c.nextIndex, .esc, c.tags⟩ (buf.drop 1)
          else if off + c.nextIndex = 0 ∧ buf.getD (off + c.nextIndex) 0 = 255 then
            if buf.drop 1 = [] then .more ⟨c.nextIndex, .iac, c.tags⟩ (buf.drop 1)
            else sDecodeGo fuel ⟨c.nextIndex, .iac, c.tags⟩ (buf.drop 1)
          else if buf.getD (off + c.nextIndex) 0 = 10 then
            .frame (.bytes (withoutCR (buf.take (off + c.nextIndex)) ++ [10]))
              ⟨0, .text, c.tags⟩ (buf.drop (off + c.nextIndex + 1))
          else if buf.getD (off + c.nextIndex) 0 = 27 then
            .frame (.bytes (buf.take (off + c.nextIndex))) ⟨0, .esc, c.tags⟩
              (buf.drop (off + c.nextIndex + 1))
          else if buf.getD (off + c.nextIndex) 0 = 255 then
            .frame (.bytes (buf.take (off + c.nextIndex))) ⟨0, .iac, c.tags⟩
              (buf.drop (off + c.nextIndex + 1))
          else .err
        | none => .more ⟨buf.length, .text, c.tags⟩ buf
      | .esc =>
        match buf with
        | [] => .more c buf
        | b0 :: _ =>
          if b0 = 60 then
            if buf.length < 3 then .more c buf
            else
              sDecodeGo fuel
                ⟨c.nextIndex, .tag, ⟨(buf.getD 1 0, buf.getD 2 0), none, []⟩ :: c.tags⟩
                (buf.drop 3)
          else if b0 = 62 then
            if buf.length < 3 then .more c buf
            else
              match c.tags with
              | [] => sDecodeGo fuel ⟨c.nextIndex, .esc, []⟩ (buf.drop 3)
              | t :: rest2 =>
                if (buf.getD 1 0, buf.getD 2 0) ≠ t.code then
                  sDecodeGo fuel ⟨c.nextIndex, .tag, t :: rest2⟩ (buf.drop 3)
                else
                  match rest2 with
                  | [] => .frame (.tag t) ⟨c.nextIndex, .text, []⟩ (buf.drop 3)
                  | p :: rest3 =>
                    match batTagToBytes t with
                    | none => .crash
                    | some tb =>
                      sDecodeGo fuel
                        ⟨c.nextIndex, .tag,
                          ⟨p.code, p.argument, p.content ++ tb⟩ :: rest3⟩
                        (buf.drop 3)
          else if b0 = 124 then
            match c.tags with
            | [] => .crash
            | t :: rest2 =>
              sDecodeGo fuel
                ⟨c.nextIndex, .tag, ⟨t.code, some t.content, []⟩ :: rest2⟩
                (buf.drop 1)
          else
            match c.tags with
            | [] => .frame (.bytes [27]) ⟨c.nextIndex, .text, []⟩ buf
            | t :: rest2 =>
              sDecodeGo fuel
                ⟨c.nextIndex, .tag, ⟨t.code, t.argument, t.content ++ [27]⟩ :: rest2⟩
                buf
      | .tag =>
        match firstHit (fun x => x == 27) (buf.drop c.nextIndex) with
        | some off =>
          match c.tags with
          | [] => .crash
          | t :: rest2 =>
            sDecodeGo fuel
              ⟨0, .esc,
                ⟨t.code, t.argument, t.content ++ buf.take (off + c.nextIndex)⟩ :: rest2⟩
              (buf.drop (off + c.nextIndex + 1))
        | none => .more ⟨buf.length, .tag, c.tags⟩ buf
      | .iac =>
        match buf with
        | [] => .more c buf
        | b0 :: _ =>
          if b0 = 251 ∨ b0 = 252 ∨ b0 = 253 ∨ b0 = 254 then
            if buf.length < 2 then .more c buf
            else
              .frame (.bytes [255, b0, buf.getD 1 0]) ⟨c.nextIndex, .text, c.tags⟩
                (buf.drop 2)
          else if b0 = 250 then
            sDecodeGo fuel ⟨c.nextIndex, .iacSub, c.tags⟩ buf
          else
            .frame (.bytes [255, b0]) ⟨c.nextIndex, .text, c.tags⟩ (buf.drop 1)
      | .iacSub =>
        match firstHit (fun x => x == 240) (buf.drop c.nextIndex) with
        | some off =>
          .frame (.bytes (255 :: buf.take (c.nextIndex + off + 1)))
            ⟨c.nextIndex, .text, c.tags⟩ (buf.drop (c.nextIndex + off + 1))
        | none => sDecodeGo fuel c buf

def sDecode (c : SCodec) (buf : Buf) : SRes := sDecodeGo (2 * buf.length + 8) c buf

inductive EofRes where
  | err
  | frame (f : SFrame)
  | nothing
  | crash
  | hang

/-- `ServerCodec::decode_eof`: decode once; on `Ok(None)` append a `'\\n'`
byte and decode once more; a second `Ok(None)` logs and drops the rest. -/
def sDecodeEof (c : SCodec) (buf : Buf) : EofRes :=
  match sDecode c buf with
  | .err => .err
  | .crash => .crash
  | .hang => .hang
  | .frame f _ _ => .frame f
  | .more c2 b2 =>
    match sDecode c2 (b2 ++ [10]) with
    | .err => .err
    | .crash => .crash
    | .hang => .hang
    | .frame f _ _ => .frame f
    | .more _ _ => .nothing

/-- C3 counterexample: in `ServerCodec`, the `Tag` state scans only for `ESC`,
so the telnet Go-Ahead `0xFF 0xF9` arriving inside an open code-99 tag is
swallowed into the tag's accumulated content (together with the following
text byte) instead of being emitted as a standalone frame. -/
theorem C3_counterexample :
    sDecode ⟨0, .text, []⟩ [27, 60, 57, 57, 255, 249, 120, 27, 62, 57, 57] =
      .frame (.tag ⟨(57, 57), none, [255, 249, 120]⟩) ⟨0, .text, []⟩ [] := by
  rfl

theorem getD_append_len {l : Buf} {x : Byte} {r : Buf} :
    (l ++ x :: r).getD l.length 0 = x := by
  induction l with
  | nil => rfl
  | cons b bs ih => simpa [List.getD_cons_succ] using ih

/-- C3 (amended): in the current decoder (`BatMudCodec`), an IAC byte and its
follower arriving after otherwise break-free text are emitted verbatim, in
place, inside the Text frame output — the frame is exactly the input bytes.
In the historical `ServerCodec` the pass-through fails inside an open tag
(see the counterexample): its `Tag` state scans only for `ESC` and files the
IAC bytes into the tag's accumulated content. -/
theorem C3_iac_passthrough (t : Buf) (c : Byte)
    (hclean : ∀ b ∈ t, isBreak b = false) :
    (drain ⟨MudState.text, 0, [], t ++ [255, c]⟩).1 = [.text (t ++ [255, c])] ∧
    (drain ⟨MudState.text, 0, [], t ++ [255, c]⟩).2.2 = true := by
  have hfhn : firstHit isBreak t = none := firstHit_none_iff.mpr hclean
  have hfh : firstHit isBreak (t ++ [255, c]) = some (0 + t.length) := by
    rw [firstHit_append_none hfhn]
    simp only [show firstHit isBreak [255, c] = some 0 from rfl, Option.map_some']
  have h255 : (t ++ [255, c]).getD t.length 0 = 255 := getD_append_len
  have hlt : t.length + 1 < (t ++ [255, c]).length := by
    rw [List.length_append]
    simp only [List.length_cons, List.length_nil]
    omega
  have hstep : decode ⟨MudState.text, 0, [], t ++ [255, c]⟩ =
      .emit (.text ((t ++ [255, c]).take (t.length + 2)))
        ⟨MudState.text, 0, [], (t ++ [255, c]).drop (t.length + 2)⟩ := by
    simp only [decode]
    rw [if_neg (by simp : ¬(t ++ [255, c] = []))]
    unfold decodeText
    rw [List.drop_zero]
    simp only [hfh, Nat.zero_add]
    rw [if_pos h255, if_pos hlt]
  have htake : (t ++ [255, c]).take (t.length + 2) = t ++ [255, c] := by
    apply List.take_of_length_le
    rw [List.length_append]
    simp only [List.length_cons, List.length_nil]
    omega
  have hdrop : (t ++ [255, c]).drop (t.length + 2) = [] := by
    apply List.drop_eq_nil_of_le
    rw [List.length_append]
    simp only [List.length_cons, List.length_nil]
    omega
  rw [htake, hdrop] at hstep
  rw [drain_emit hstep,
    drain_stop (show decode ⟨MudState.text, 0, [], ([] : Buf)⟩ =
      .stop ⟨MudState.text, 0, [], []⟩ from rfl)]
  exact ⟨rfl, rfl⟩

/-- Witness for C3 (amended) at the concrete input `"h" IAC GA`. -/
theorem C3_iac_passthrough_witness :
    (∀ b ∈ ([104] : Buf), isBreak b = false) ∧
    ((drain ⟨MudState.text, 0, [], [104] ++ [255, 249]⟩).1 =
        [.text ([104] ++ [255, 249])] ∧
      (drain ⟨MudState.text, 0, [], [104] ++ [255, 249]⟩).2.2 = true) :=
  ⟨by decide, C3_iac_passthrough [104] 249 (by decide)⟩

/-- C10 counterexample: with an empty remaining buffer at end of stream —
the normal case, a stream that ended right after a newline-terminated
line — `decode_eof` appends the fabricated `'\\n'`, the next decode call
hits the `buf.len() == 1 && buf[0] == b'\\n'` check, and `decode_eof`
returns the `"seems dead!"` I/O error instead of quietly finishing (the
claim describes only `frame` or drop outcomes). -/
theorem C10_counterexample :
    sDecodeEof ⟨0, .text, []⟩ [] = .err := by
  rfl

theorem sDecode_eq_go (c : SCodec) (buf : Buf) (m : Nat)
    (h : 2 * buf.length + 8 = m + 1) :
    sDecode c buf = sDecodeGo (m + 1) c buf := by
  unfold sDecode
  rw [h]

theorem sDecodeGo_clean_more (m : Nat) (r : Buf) (hne : r ≠ [])
    (hclean : ∀ b ∈ r, isBreak b = false) :
    sDecodeGo (m + 1) ⟨0, .text, []⟩ r = .more ⟨r.length, .text, []⟩ r := by
  have hdead : ¬(r.length = 1 ∧ r.getD 0 0 = 10) := by
    rintro ⟨h1, h2⟩
    have hm : r.getD 0 0 ∈ r := getD_mem (by omega)
    have hb := hclean _ hm
    rw [h2] at hb
    simp [isBreak] at hb
  have hfhn : firstHit isBreak r = none := firstHit_none_iff.mpr hclean
  simp only [sDecodeGo]
  rw [if_neg hdead]
  rw [List.drop_zero, hfhn]

theorem sDecodeGo_eof_line (m : Nat) (r : Buf) (hne : r ≠ [])
    (hclean : ∀ b ∈ r, isBreak b = false) :
    sDecodeGo (m + 1) ⟨r.length, .text, []⟩ (r ++ [10]) =
      .frame (.bytes (withoutCR r ++ [10])) ⟨0, .text, []⟩ [] := by
  have hrlen : 0 < r.length := List.length_pos.mpr hne
  have hdead : ¬((r ++ [10]).length = 1 ∧ (r ++ [10]).getD 0 0 = 10) := by
    rintro ⟨h1, _⟩
    rw [List.length_append] at h1
    simp only [List.length_cons, List.length_nil] at h1
    omega
  have hdropl : (r ++ [10]).drop r.length = [10] := by
    have := List.drop_left r [10]
    simpa using this
  have hfh : firstHit isBreak ((r ++ [10]).drop r.length) = some 0 := by
    rw [hdropl]
    rfl
  have hch : (r ++ [10]).getD r.length 0 = 10 := getD_append_len
  have hne0 : ¬(r.length = 0 ∧ (r ++ [10]).getD r.length 0 = 27) := by
    rintro ⟨h0, _⟩
    omega
  have hne0b : ¬(r.length = 0 ∧ (r ++ [10]).getD r.length 0 = 255) := by
    rintro ⟨h0, _⟩
    omega
  have htake : (r ++ [10]).take r.length = r := by
    have hx := List.take_left r [10]
    simpa using hx
  have hdrop2 : (r ++ [10]).drop (r.length + 1) = [] := by
    apply List.drop_eq_nil_of_le
    rw [List.length_append]
    simp only [List.length_cons, List.length_nil]
    omega
  simp only [sDecodeGo]
  rw [if_neg hdead, hfh]
  simp only [Nat.zero_add]
  rw [if_neg hne0, if_neg hne0b, if_pos hch]
  rw [htake, hdrop2]

/-- C10 (amended): at end of stream with a non-empty remainder containing no
newline, ESC or IAC bytes, `decode_eof` fabricates exactly one `'\\n'` that
was never received and delivers the final partial line (with a trailing
`'\\r'` stripped) terminated by that newline.  An EMPTY remainder instead
trips the `"seems dead!"` check on the fabricated lone newline and the EOF
decode returns an error (see the counterexample). -/
theorem C10_eof_fabricated_newline (r : Buf) (hne : r ≠ [])
    (hclean : ∀ b ∈ r, isBreak b = false) :
    sDecodeEof ⟨0, .text, []⟩ r = .frame (.bytes (withoutCR r ++ [10])) := by
  unfold sDecodeEof
  have ha := sDecode_eq_go ⟨0, .text, []⟩ r (2 * r.length + 7) (by omega)
  have hb := sDecodeGo_clean_more (2 * r.length + 7) r hne hclean
  have hc := sDecode_eq_go ⟨r.length, .text, []⟩ (r ++ [10])
    (2 * (r ++ [10]).length + 7) (by omega)
  have hd := sDecodeGo_eof_line (2 * (r ++ [10]).length + 7) r hne hclean
  rw [ha, hb]
  dsimp only
  rw [hc, hd]

/-- Witness for C10 (amended) at the concrete remainder `"hi"`. -/
theorem C10_eof_fabricated_newline_witness :
    (([104, 105] : Buf) ≠ [] ∧ ∀ b ∈ ([104, 105] : Buf), isBreak b = false) ∧
    sDecodeEof ⟨0, .text, []⟩ [104, 105] =
      .frame (.bytes (withoutCR [104, 105] ++ [10])) :=
  ⟨⟨by decide, by decide⟩, C10_eof_fabricated_newline [104, 105] (by decide) (by decide)⟩

end BCProxy
